import Mathlib

/-!
# Verification of the `backfill` package of `ngrash/tgstat`

A shallow embedding of the backfill/resampling engine
(`backfill/backfill.go`): the label/identity composer, the
linked-list recorder (`linkedListRecorder.Inc`), the forward-fill cursor
(`record.forward`) and the resampling walk (`linkedListRecorder.Write`).

Modelling conventions:
* `time.Time` values are integers (seconds); `t.After(u)` is `u < t`,
  `now.Unix()` is the integer itself, `now.Add(resolution)` is `now + res`.
* `uint64` values are `Nat` reduced modulo `2 ^ 64` where the source adds.
* Go maps keyed by series identity are association lists
  (`List (String × _)`); map assignment replaces the entry in place when
  the key exists and appends a fresh entry otherwise.  Go's unspecified
  map iteration order in `Write`'s per-step `range current` loop is made
  explicit as an `order : List String` parameter; a run of the Go
  program corresponds to some permutation of the keys.
* The unbounded `for` loop of `Write` is run on an explicit fuel that we
  prove sufficient whenever the resolution is positive.
* Pointers into a series' chain (`*record`) are the pointed-to node
  together with the list of nodes after it, so a chain pointer is
  `Node × List Node` and the null `next` pointer is the empty list.
-/

namespace Tgstat

/-- One data point of a series: the `record` struct of the source
(`value uint64`, `at time.Time`); the `next` pointer is represented by
the position of the node in a `List Node`. -/
structure Node where
  value : Nat
  ts : Int
  deriving DecidableEq, Repr

/-- A non-null pointer into a series' chain: the node pointed to and the
nodes reachable through `next`. -/
abbrev ChainPtr := Node × List Node

/-- One output line of `Write`: `fmt.Fprintf(w, "%s %d %d\n", name, next.value, now.Unix())`. -/
structure Line where
  name : String
  value : Nat
  time : Int
  deriving DecidableEq, Repr

/-- `uint64` reduction: Go's 64-bit unsigned arithmetic wraps modulo `2 ^ 64`. -/
def u64 (n : Nat) : Nat := n % 2 ^ 64

/-- Go map read `m[k]` (comma-ok form) on an association list. -/
def lookupS {α : Type} : List (String × α) → String → Option α
  | [], _ => none
  | (k, v) :: rest, key => if k = key then some v else lookupS rest key

/-- Go map assignment `m[k] = v`: replace in place if the key exists,
append a fresh entry otherwise. -/
def setS {α : Type} : List (String × α) → String → α → List (String × α)
  | [], k, v => [(k, v)]
  | (k', v') :: rest, k, v =>
      if k' = k then (k, v) :: rest else (k', v') :: setS rest k v

/-- Update the value stored at an existing key (used for the heap
mutation `current.next = next`, which extends the chain whose head is
held by `r.first[name]`). -/
def mapS {α : Type} : List (String × α) → String → (α → α) → List (String × α)
  | [], _, _ => []
  | (k', v') :: rest, k, f =>
      if k' = k then (k', f v') :: rest else (k', v') :: mapS rest k f

/-- The `linkedListRecorder`: `first` maps each series identity to the
head of its chain, `current` to its tail node (the tail's `next` is nil,
so the tail pointer is just the node). -/
structure Recorder where
  first : List (String × ChainPtr)
  current : List (String × Node)
  deriving DecidableEq, Repr

/-- `newLinkedListRecorder()`: both maps empty. -/
def Recorder.empty : Recorder := ⟨[], []⟩

/-- `linkedListRecorder.Inc`: if the series exists and the new timestamp
is before the tail's (`current.at.After(at)`), drop the increment (a
diagnostic is printed, nothing else happens); otherwise append a node
with cumulative value `current.value + value` (uint64 addition) and move
the tail; a first increment creates the head/tail node. -/
def Recorder.Inc (r : Recorder) (name : String) (value : Nat) (t : Int) : Recorder :=
  match lookupS r.current name with
  | some cur =>
      if t < cur.ts then r
      else
        let nx : Node := ⟨u64 (cur.value + value), t⟩
        { first := mapS r.first name fun c => (c.1, c.2 ++ [nx]),
          current := setS r.current name nx }
  | none =>
      let nx : Node := ⟨u64 value, t⟩
      { first := setS r.first name (nx, []),
        current := setS r.current name nx }

/-- `record.forward`: starting from the node `n` (with trailing chain
`rest`), return the record active at time `t` and whether followup
records exist.  `(none, true)` is the "not yet started" case
(`r.at.After(to)`). -/
def forward : Node → List Node → Int → Option ChainPtr × Bool
  | n, rest, t =>
    if t < n.ts then (none, true)
    else
      match rest with
      | [] => (some (n, []), false)
      | m :: mrest =>
          if t < m.ts then (some (n, m :: mrest), true)
          else forward m mrest t

/-- One pass of `Write`'s inner `for name, r := range current` loop, in
the iteration order `order`: returns the lines written this step, the
updated cursor map and the `hasActiveMetrics` flag. -/
def writeStep (t : Int) : List String → List (String × ChainPtr) →
    List Line × List (String × ChainPtr) × Bool
  | [], cur => ([], cur, false)
  | name :: names, cur =>
    match lookupS cur name with
    | none => writeStep t names cur
    | some (n, rest) =>
      match forward n rest t with
      | (none, _) => writeStep t names cur
      | (some nx, hasMore) =>
          let cur1 := if hasMore then setS cur name nx else cur
          let out := writeStep t names cur1
          (⟨name, nx.1.value, t⟩ :: out.1, out.2.1, hasMore || out.2.2)

/-- `Write`'s outer `for now := *start; ; now = now.Add(resolution)`
loop, with explicit fuel; `none` means the fuel ran out before
`hasActiveMetrics` went false.  The lines of each step are kept grouped
per step (the source writes them to the sink in this order). -/
def writeLoop (order : List String) (res : Int) :
    Nat → Int → List (String × ChainPtr) → Option (List (List Line))
  | 0, _, _ => none
  | fuel + 1, t, cur =>
    match writeStep t order cur with
    | (lines, cur1, active) =>
      if active then
        match writeLoop order res fuel (t + res) cur1 with
        | none => none
        | some groups => some (lines :: groups)
      else some [lines]

/-- The start-time scan of `Write`: the minimum head timestamp over all
series, `none` when the recorder holds no series. -/
def startTime : List (String × ChainPtr) → Option Int
  | [] => none
  | (_, (n, _)) :: rest =>
      some (match startTime rest with
            | none => n.ts
            | some s => min n.ts s)

/-- Timestamp of the last node of a chain. -/
def lastTs (c : ChainPtr) : Int := (c.2.getLastD c.1).ts

/-- Maximum last-node timestamp over all series (`0` for an empty map;
only used to size the fuel). -/
def maxLastTs : List (String × ChainPtr) → Int
  | [] => 0
  | [(_, c)] => lastTs c
  | (_, c) :: p :: rest => max (lastTs c) (maxLastTs (p :: rest))

/-- Fuel for the walk: enough steps to pass the maximal last-node
timestamp whenever the resolution is positive. -/
def writeFuel (r : Recorder) (res : Int) : Nat :=
  (maxLastTs r.first - (startTime r.first).getD 0).toNat / res.toNat + 2

/-- The two ways the modelled `Write` can fail to produce output:
`noRecords` is `ErrNoRecords`; `fuelExhausted` marks a run of the
unbounded source loop that outlives the modelled fuel (shown impossible
for positive resolutions). -/
inductive WriteError where
  | noRecords
  | fuelExhausted
  deriving DecidableEq, Repr

/-- `linkedListRecorder.Write`: compute the start time (failing with
`ErrNoRecords` if no series exists), copy the head map into the local
cursor map, then walk time in resolution steps.  Output lines are
grouped per step; `order` is the map iteration order of the per-step
`range` loop. -/
def Recorder.Write (r : Recorder) (res : Int) (order : List String) :
    List (List Line) × Option WriteError :=
  match startTime r.first with
  | none => ([], some .noRecords)
  | some start =>
    match writeLoop order res (writeFuel r res) start r.first with
    | none => ([], some .fuelExhausted)
    | some groups => (groups, none)

/-- Text of one output line, as printed by
`fmt.Fprintf(w, "%s %d %d\n", name, next.value, now.Unix())`. -/
def Line.render (l : Line) : String :=
  l.name ++ " " ++ toString l.value ++ " " ++ toString l.time ++ "\n"

/-- The byte stream `Write` sends to its sink. -/
def renderLines (ls : List Line) : String := String.join (ls.map Line.render)

/-- An increment event as fed to `Inc`: series identity, amount, time. -/
structure Event where
  name : String
  amount : Nat
  time : Int
  deriving DecidableEq, Repr

/-- Replay a sequence of `Inc` calls against a recorder. -/
def applyFrom (r : Recorder) : List Event → Recorder
  | [] => r
  | e :: es => applyFrom (r.Inc e.name e.amount e.time) es

/-- The recorder obtained by replaying `es` against a fresh recorder. -/
def applyEvents (es : List Event) : Recorder := applyFrom Recorder.empty es

/-- Does `Inc` accept (rather than drop) this event in state `r`?
Mirrors the out-of-order guard of `Inc`. -/
def accepts (r : Recorder) (e : Event) : Bool :=
  match lookupS r.current e.name with
  | some cur => !(e.time < cur.ts)
  | none => true

/-- The sub-sequence of `es` that `Inc` accepts when replayed from `r`. -/
def acceptedFrom (r : Recorder) : List Event → List Event
  | [] => []
  | e :: es =>
      if accepts r e then e :: acceptedFrom (r.Inc e.name e.amount e.time) es
      else acceptedFrom (r.Inc e.name e.amount e.time) es

/-- The accepted sub-sequence of a replay from the fresh recorder. -/
def acceptedEvents (es : List Event) : List Event := acceptedFrom Recorder.empty es

/-- The events of a given series. -/
def nameEvents (es : List Event) (name : String) : List Event :=
  es.filter fun e => e.name = name

/-- The chain of running-total nodes a series accumulates from a list of
(accepted) events, continuing from the prior cumulative value `v0`. -/
def chainOf (v0 : Nat) : List Event → List Node
  | [] => []
  | e :: es => ⟨u64 (v0 + e.amount), e.time⟩ :: chainOf (u64 (v0 + e.amount)) es

/-- Sum of the amounts of the accepted increments of series `name` whose
timestamp is at most `t` — the value the specification says a sample of
that series at step time `t` must carry. -/
def sumUpTo (es : List Event) (name : String) (t : Int) : Nat :=
  (((acceptedEvents es).filter fun e => e.name = name ∧ e.time ≤ t).map Event.amount).sum

/-- Walk a chain from node `n` while the next node's timestamp is still
`≤ t`, returning the node reached: the node active at time `t` under
forward-fill. -/
def activeNode (n : Node) : List Node → Int → Node
  | [], _ => n
  | m :: mrest, t => if t < m.ts then n else activeNode m mrest t

/-- The node of a chain active at time `t` under forward-fill, `none`
when the chain starts strictly after `t`.  (For the timestamp-sorted
chains the recorder builds this is the last node with timestamp `≤ t`.) -/
def lastLE : List Node → Int → Option Node
  | [], _ => none
  | n :: rest, t => if t < n.ts then none else some (activeNode n rest t)

/-- Is some series of the cursor map both started and unfinished at time
`t`?  This is exactly the condition under which the walk's
`hasActiveMetrics` flag is set (for sorted chains). -/
def stillActive (m : List (String × ChainPtr)) (t : Int) : Bool :=
  m.any fun p => decide (p.2.1.ts ≤ t) && decide (t < lastTs p.2)

/-- The step count asserted by the specification:
`⌈(maximum last-node timestamp − minimum head timestamp) / resolution⌉ + 1`. -/
def claimedStepCount (r : Recorder) (res : Int) : Nat :=
  ((maxLastTs r.first - (startTime r.first).getD 0).toNat + res.toNat - 1) / res.toNat + 1

/-! ## The label/identity composer -/

/-- The `label` struct: one key/value pair. -/
structure Label where
  key : String
  value : String
  deriving DecidableEq, Repr

/-- `labels.with`: copy the sequence and append one label. -/
def labelsWith (l : List Label) (k v : String) : List Label := l ++ [⟨k, v⟩]

/-- Go's `%#v` rendering of a label value (a quoted Go string literal;
escape sequences do not occur in the inputs this development evaluates
on). -/
def quoteGo (s : String) : String := "\"" ++ s ++ "\""

/-- Go string slicing `s[:high]`: panics (here `none`) unless
`0 ≤ high ≤ len(s)`. -/
def goSliceTo (s : String) (high : Int) : Option String :=
  if 0 ≤ high ∧ high ≤ s.length then some ⟨s.data.take high.toNat⟩ else none

/-- `labels.String`: concatenate `key=value,` for every label, then trim
the trailing comma with `s[:len(s)-1]` — which, exactly as in the
source, is a Go slice whose bounds can be violated. -/
def labelsString (l : List Label) : Option String :=
  let s := l.foldl (fun acc lb => acc ++ lb.key ++ "=" ++ quoteGo lb.value ++ ",") ""
  goSliceTo s ((s.length : Int) - 1)

/-- The series identity built by `Metric.Inc`:
`fmt.Sprintf("%s{%s}", m.name, m.labels.String())`. -/
def metricIdentity (name : String) (l : List Label) : Option String :=
  (labelsString l).map fun ls => name ++ "\x7b" ++ ls ++ "\x7d"

/-! ## State-threading variant of `Write`

`WriteSt` mirrors `Write` statement by statement but additionally
threads the receiver recorder through the walk, returning it next to the
result, so that the frame property "`Write` leaves the recorder's maps
and chains untouched" is a statement about the definition rather than a
typing accident. -/

/-- The inner `range` loop of `Write`, threading the receiver. -/
def writeStepSt (rec : Recorder) (t : Int) :
    List String → List (String × ChainPtr) →
    Recorder × List Line × List (String × ChainPtr) × Bool
  | [], cur => (rec, [], cur, false)
  | name :: names, cur =>
    match lookupS cur name with
    | none => writeStepSt rec t names cur
    | some (n, rest) =>
      match forward n rest t with
      | (none, _) => writeStepSt rec t names cur
      | (some nx, hasMore) =>
          let cur1 := if hasMore then setS cur name nx else cur
          let out := writeStepSt rec t names cur1
          (out.1, ⟨name, nx.1.value, t⟩ :: out.2.1, out.2.2.1, hasMore || out.2.2.2)

/-- The outer time loop of `Write`, threading the receiver. -/
def writeLoopSt (order : List String) (res : Int) :
    Nat → Recorder → Int → List (String × ChainPtr) →
    Recorder × Option (List (List Line))
  | 0, rec, _, _ => (rec, none)
  | fuel + 1, rec, t, cur =>
    match writeStepSt rec t order cur with
    | (rec1, lines, cur1, active) =>
      if active then
        match writeLoopSt order res fuel rec1 (t + res) cur1 with
        | (rec2, none) => (rec2, none)
        | (rec2, some groups) => (rec2, some (lines :: groups))
      else (rec1, some [lines])

/-- `Write`, threading the receiver recorder through every statement
that can see it and returning it with the result. -/
def Recorder.WriteSt (r : Recorder) (res : Int) (order : List String) :
    (List (List Line) × Option WriteError) × Recorder :=
  match startTime r.first with
  | none => (([], some .noRecords), r)
  | some start =>
    match writeLoopSt order res (writeFuel r res) r start r.first with
    | (r1, none) => (([], some .fuelExhausted), r1)
    | (r1, some groups) => ((groups, none), r1)

end Tgstat

namespace Tgstat

/-! ## Association-map lemmas -/

theorem lookupS_setS_self {α : Type} (m : List (String × α)) (k : String) (v : α) :
    lookupS (setS m k v) k = some v := by
  induction m with
  | nil => simp [setS, lookupS]
  | cons p rest ih =>
      obtain ⟨k', v'⟩ := p
      by_cases h : k' = k
      · simp [setS, h, lookupS]
      · simp [setS, h, lookupS, ih]

theorem lookupS_setS_ne {α : Type} (m : List (String × α)) {k k' : String} (v : α)
    (h : k' ≠ k) : lookupS (setS m k v) k' = lookupS m k' := by
  induction m with
  | nil => simp [setS, lookupS, Ne.symm h]
  | cons p rest ih =>
      obtain ⟨k0, v0⟩ := p
      by_cases h0 : k0 = k
      · subst h0
        simp [setS, lookupS, Ne.symm h]
      · by_cases h1 : k0 = k'
        · subst h1
          simp [setS, h0, lookupS]
        · simp [setS, h0, lookupS, h1, ih]

theorem lookupS_mapS_self {α : Type} (m : List (String × α)) (k : String) (f : α → α) :
    lookupS (mapS m k f) k = (lookupS m k).map f := by
  induction m with
  | nil => simp [mapS, lookupS]
  | cons p rest ih =>
      obtain ⟨k0, v0⟩ := p
      by_cases h0 : k0 = k
      · simp [mapS, h0, lookupS]
      · simp [mapS, h0, lookupS, ih]

theorem lookupS_mapS_ne {α : Type} (m : List (String × α)) {k k' : String} (f : α → α)
    (h : k' ≠ k) : lookupS (mapS m k f) k' = lookupS m k' := by
  induction m with
  | nil => simp [mapS, lookupS]
  | cons p rest ih =>
      obtain ⟨k0, v0⟩ := p
      by_cases h0 : k0 = k
      · subst h0
        simp [mapS, lookupS, Ne.symm h]
      · by_cases h1 : k0 = k'
        · subst h1
          simp [mapS, h0, lookupS]
        · simp [mapS, h0, lookupS, h1, ih]

theorem setS_comm {α : Type} (m : List (String × α)) {k1 k2 : String} (v1 v2 : α)
    (hne : k1 ≠ k2) (h1 : (lookupS m k1).isSome) (h2 : (lookupS m k2).isSome) :
    setS (setS m k1 v1) k2 v2 = setS (setS m k2 v2) k1 v1 := by
  induction m with
  | nil => simp [lookupS] at h1
  | cons p rest ih =>
      obtain ⟨k0, v0⟩ := p
      by_cases e1 : k0 = k1
      · subst e1
        simp [setS, hne]
      · by_cases e2 : k0 = k2
        · subst e2
          simp [setS, e1]
        · simp only [lookupS, if_neg e1] at h1
          simp only [lookupS, if_neg e2] at h2
          simp [setS, e1, e2, ih h1 h2]

theorem lookupS_isSome_setS {α : Type} (m : List (String × α)) (k k' : String) (v : α)
    (h : (lookupS m k').isSome) : (lookupS (setS m k v) k').isSome := by
  by_cases e : k' = k
  · subst e; simp [lookupS_setS_self]
  · rwa [lookupS_setS_ne m v e]

/-! ## `forward` lemmas -/

theorem forward_not_started {n : Node} (rest : List Node) {t : Int} (h : t < n.ts) :
    forward n rest t = (none, true) := by
  cases rest <;> simp [forward, h]

theorem forward_started {n : Node} {rest : List Node} {t : Int} (h : ¬ t < n.ts) :
    ∃ c crest, forward n rest t = (some (c, crest), !crest.isEmpty) ∧
      lastLE (n :: rest) t = some c ∧
      (c :: crest) <:+ (n :: rest) ∧ ¬ t < c.ts ∧
      (∀ m mrest, crest = m :: mrest → t < m.ts) := by
  induction rest generalizing n with
  | nil =>
      refine ⟨n, [], ?_, ?_, ?_, h, ?_⟩
      · simp [forward, h]
      · simp [lastLE, activeNode, h]
      · exact List.suffix_refl _
      · intro m mrest hm; cases hm
  | cons m mrest ih =>
      by_cases hm : t < m.ts
      · refine ⟨n, m :: mrest, ?_, ?_, List.suffix_refl _, h, ?_⟩
        · simp [forward, h, hm]
        · simp [lastLE, activeNode, h, hm]
        · intro m' mrest' he
          cases he
          exact hm
      · obtain ⟨c, crest, hfw, hlast, hsfx, hts, hnext⟩ := ih hm
        refine ⟨c, crest, ?_, ?_, hsfx.trans (List.suffix_cons _ _), hts, hnext⟩
        · simp [forward, h, hm, hfw]
        · simp only [lastLE, if_neg hm, Option.some.injEq] at hlast
          simp [lastLE, activeNode, h, hm, hlast]

theorem forward_none_iff (n : Node) (rest : List Node) (t : Int) :
    (forward n rest t).1 = none ↔ t < n.ts := by
  constructor
  · intro h
    by_contra hlt
    obtain ⟨c, crest, hfw, -, -, -, -⟩ := forward_started hlt
    rw [hfw] at h
    simp at h
  · intro h
    rw [forward_not_started rest h]

end Tgstat

namespace Tgstat

/-! ## Recorder shape: what replaying `Inc` builds -/

/-- Chain timestamps are non-decreasing in chain order. -/
def TsSorted (l : List Node) : Prop := l.Pairwise fun a b => a.ts ≤ b.ts

/-- View a plain node list as a chain pointer (`none` = null). -/
def chainPtrOf : List Node → Option ChainPtr
  | [] => none
  | n :: rest => some (n, rest)

/-- A series entry is well-formed when the tail map holds the last node
of the chain held by the head map, and the chain timestamps are
non-decreasing. -/
def SeriesOK : Option ChainPtr → Option Node → Prop
  | none, none => True
  | some (n, rest), some tl => tl = rest.getLastD n ∧ TsSorted (n :: rest)
  | _, _ => False

/-- Recorder invariant maintained by `Inc`. -/
def WF (r : Recorder) : Prop :=
  ∀ name, SeriesOK (lookupS r.first name) (lookupS r.current name)

/-- Extend a series chain by the running-total nodes of further accepted
events (the base cumulative value is the current tail's). -/
def extendPtr : Option ChainPtr → List Event → Option ChainPtr
  | none, es => chainPtrOf (chainOf 0 es)
  | some (n, rest), es => some (n, rest ++ chainOf ((rest.getLastD n).value) es)

theorem u64_shift (a b : Nat) : u64 (u64 a + b) = u64 (a + b) := by
  simp [u64, Nat.mod_add_mod]

theorem extendPtr_nil (p : Option ChainPtr) : extendPtr p [] = p := by
  cases p with
  | none => rfl
  | some c => obtain ⟨n, rest⟩ := c; simp [extendPtr, chainOf]

theorem ts_le_getLastD {l : List Node} :
    ∀ {n : Node}, TsSorted (n :: l) → ∀ x ∈ n :: l, x.ts ≤ (l.getLastD n).ts := by
  induction l with
  | nil =>
      intro n _ x hx
      simp at hx
      simp [hx, List.getLastD]
  | cons m mrest ih =>
      intro n hs x hx
      have hs' : TsSorted (m :: mrest) := (List.pairwise_cons.mp hs).2
      have hnm : n.ts ≤ m.ts := (List.pairwise_cons.mp hs).1 m (by simp)
      rw [List.getLastD_cons]
      rcases List.mem_cons.mp hx with hx | hx
      · subst hx
        exact le_trans hnm (ih hs' m (by simp))
      · exact ih hs' x hx

theorem head_ts_le {l : List Node} {n x : Node}
    (hs : TsSorted (n :: l)) (hx : x ∈ n :: l) : n.ts ≤ x.ts := by
  rcases List.mem_cons.mp hx with hx | hx
  · simp [hx]
  · exact (List.pairwise_cons.mp hs).1 x hx

theorem wf_empty : WF Recorder.empty := by
  intro name
  simp [Recorder.empty, lookupS, SeriesOK]

theorem inc_dropped {r : Recorder} {e : Event} (h : accepts r e = false) :
    r.Inc e.name e.amount e.time = r := by
  unfold accepts at h
  unfold Recorder.Inc
  cases hc : lookupS r.current e.name with
  | none => rw [hc] at h; simp at h
  | some cur =>
      rw [hc] at h
      simp only [Bool.not_eq_false'] at h
      have : e.time < cur.ts := by
        by_contra hlt
        simp [hlt] at h
      simp [this]

theorem wf_inc (r : Recorder) (hr : WF r) (name : String) (v : Nat) (t : Int) :
    WF (r.Inc name v t) := by
  intro nm
  unfold Recorder.Inc
  cases hc : lookupS r.current name with
  | none =>
      have hf : lookupS r.first name = none := by
        have := hr name
        cases hfc : lookupS r.first name with
        | none => rfl
        | some p =>
            obtain ⟨pn, prest⟩ := p
            rw [hfc, hc] at this
            exact absurd this (by simp [SeriesOK])
      by_cases hnm : nm = name
      · subst hnm
        simp only [lookupS_setS_self]
        constructor
        · rfl
        · exact List.pairwise_singleton _ _
      · simp only [lookupS_setS_ne _ _ hnm]
        exact hr nm
  | some cur =>
      by_cases ht : t < cur.ts
      · simp only [if_pos ht]
        exact hr nm
      · simp only [if_neg ht]
        by_cases hnm : nm = name
        · subst hnm
          have hser := hr nm
          rw [hc] at hser
          cases hfc : lookupS r.first nm with
          | none => rw [hfc] at hser; exact absurd hser (by simp [SeriesOK])
          | some p =>
              obtain ⟨n, rest⟩ := p
              rw [hfc] at hser
              obtain ⟨htl, hsort⟩ := hser
              simp only [lookupS_mapS_self, hfc, Option.map_some', lookupS_setS_self]
              constructor
              · simp [List.getLastD_concat]
              · show TsSorted ((n :: rest) ++ [⟨u64 (cur.value + v), t⟩])
                rw [TsSorted, List.pairwise_append]
                refine ⟨hsort, List.pairwise_singleton _ _, ?_⟩
                intro a ha b hb
                simp only [List.mem_singleton] at hb
                subst hb
                have : a.ts ≤ cur.ts := htl ▸ ts_le_getLastD hsort a ha
                exact le_trans this (not_lt.mp ht)
        · simp only [lookupS_mapS_ne _ _ hnm, lookupS_setS_ne _ _ hnm]
          exact hr nm

theorem wf_applyFrom (es : List Event) :
    ∀ (r : Recorder), WF r → WF (applyFrom r es) := by
  induction es with
  | nil => intro r hr; exact hr
  | cons e es ih =>
      intro r hr
      exact ih _ (wf_inc r hr e.name e.amount e.time)

theorem wf_applyEvents (es : List Event) : WF (applyEvents es) :=
  wf_applyFrom es Recorder.empty wf_empty

end Tgstat

namespace Tgstat

theorem wf_first_none {r : Recorder} (hr : WF r) {nm : String}
    (hc : lookupS r.current nm = none) : lookupS r.first nm = none := by
  have := hr nm
  rw [hc] at this
  cases hfc : lookupS r.first nm with
  | none => rfl
  | some p =>
      obtain ⟨n, rest⟩ := p
      rw [hfc] at this
      exact absurd this (by simp [SeriesOK])

theorem wf_first_some {r : Recorder} (hr : WF r) {nm : String} {cur : Node}
    (hc : lookupS r.current nm = some cur) :
    ∃ n rest, lookupS r.first nm = some (n, rest) ∧ cur = rest.getLastD n ∧
      TsSorted (n :: rest) := by
  have := hr nm
  rw [hc] at this
  cases hfc : lookupS r.first nm with
  | none => rw [hfc] at this; exact absurd this (by simp [SeriesOK])
  | some p =>
      obtain ⟨n, rest⟩ := p
      rw [hfc] at this
      exact ⟨n, rest, rfl, this.1, this.2⟩

theorem inc_first_ne (r : Recorder) (e : Event) {name : String} (h : name ≠ e.name) :
    lookupS (r.Inc e.name e.amount e.time).first name = lookupS r.first name := by
  unfold Recorder.Inc
  cases lookupS r.current e.name with
  | none => simp only [lookupS_setS_ne _ _ h]
  | some cur =>
      by_cases ht : e.time < cur.ts
      · simp [ht]
      · simp only [if_neg ht, lookupS_mapS_ne _ _ h]

theorem nameEvents_cons (e : Event) (A : List Event) (nm : String) :
    nameEvents (e :: A) nm =
      if e.name = nm then e :: nameEvents A nm else nameEvents A nm := by
  by_cases h : e.name = nm <;> simp [nameEvents, List.filter_cons, h]

theorem inc_new_first {r : Recorder} {nm : String}
    (hc : lookupS r.current nm = none) (v : Nat) (t : Int) :
    (r.Inc nm v t).first = setS r.first nm (⟨u64 v, t⟩, []) := by
  simp [Recorder.Inc, hc]

theorem inc_new_current {r : Recorder} {nm : String}
    (hc : lookupS r.current nm = none) (v : Nat) (t : Int) :
    (r.Inc nm v t).current = setS r.current nm ⟨u64 v, t⟩ := by
  simp [Recorder.Inc, hc]

theorem inc_app_first {r : Recorder} {nm : String} {cur : Node}
    (hc : lookupS r.current nm = some cur) {t : Int} (ht : ¬ t < cur.ts) (v : Nat) :
    (r.Inc nm v t).first =
      mapS r.first nm (fun c => (c.1, c.2 ++ [⟨u64 (cur.value + v), t⟩])) := by
  simp [Recorder.Inc, hc, ht]

theorem inc_app_current {r : Recorder} {nm : String} {cur : Node}
    (hc : lookupS r.current nm = some cur) {t : Int} (ht : ¬ t < cur.ts) (v : Nat) :
    (r.Inc nm v t).current = setS r.current nm ⟨u64 (cur.value + v), t⟩ := by
  simp [Recorder.Inc, hc, ht]

theorem applyFrom_first (es : List Event) :
    ∀ (r : Recorder), WF r → ∀ name,
      lookupS (applyFrom r es).first name =
        extendPtr (lookupS r.first name) (nameEvents (acceptedFrom r es) name) := by
  induction es with
  | nil =>
      intro r _ name
      simp [applyFrom, acceptedFrom, nameEvents, extendPtr_nil]
  | cons e es ih =>
      intro r hr name
      have hstep : applyFrom r (e :: es) = applyFrom (r.Inc e.name e.amount e.time) es := rfl
      cases hacc : accepts r e with
      | false =>
          have hre : r.Inc e.name e.amount e.time = r := inc_dropped hacc
          have h2 : acceptedFrom r (e :: es) = acceptedFrom r es := by
            simp only [acceptedFrom, hacc, Bool.false_eq_true, if_false, hre]
          rw [hstep, hre, h2]
          exact ih r hr name
      | true =>
          have hr' : WF (r.Inc e.name e.amount e.time) :=
            wf_inc r hr e.name e.amount e.time
          have h2 : acceptedFrom r (e :: es) =
              e :: acceptedFrom (r.Inc e.name e.amount e.time) es := by
            simp only [acceptedFrom, hacc, if_true]
          rw [hstep, ih _ hr' name, h2]
          by_cases hn : name = e.name
          · subst hn
            rw [nameEvents_cons, if_pos rfl]
            cases hc : lookupS r.current e.name with
            | none =>
                have hf : lookupS r.first e.name = none := wf_first_none hr hc
                have hf' : lookupS (r.Inc e.name e.amount e.time).first e.name =
                    some (⟨u64 e.amount, e.time⟩, []) := by
                  rw [inc_new_first hc, lookupS_setS_self]
                rw [hf, hf']
                simp [extendPtr, chainOf, chainPtrOf, List.getLastD]
            | some cur =>
                have ht : ¬ e.time < cur.ts := by
                  unfold accepts at hacc
                  rw [hc] at hacc
                  simpa using hacc
                obtain ⟨n, rest, hfc, htl, _⟩ := wf_first_some hr hc
                have hf' : lookupS (r.Inc e.name e.amount e.time).first e.name =
                    some (n, rest ++ [⟨u64 (cur.value + e.amount), e.time⟩]) := by
                  rw [inc_app_first hc ht, lookupS_mapS_self, hfc, Option.map_some']
                rw [hfc, hf']
                simp only [extendPtr, List.getLastD_concat, ← htl, chainOf,
                  List.append_assoc, List.singleton_append]
          · rw [nameEvents_cons, if_neg (fun hh => hn hh.symm), inc_first_ne r e hn]

theorem applyEvents_first (es : List Event) (name : String) :
    lookupS (applyEvents es).first name =
      chainPtrOf (chainOf 0 (nameEvents (acceptedEvents es) name)) := by
  have := applyFrom_first es Recorder.empty wf_empty name
  rw [applyEvents, acceptedEvents]
  rw [this]
  simp [Recorder.empty, lookupS, extendPtr]

theorem chainOf_map_ts (as : List Event) :
    ∀ v0, (chainOf v0 as).map Node.ts = as.map Event.time := by
  induction as with
  | nil => intro v0; rfl
  | cons e as ih => intro v0; simp [chainOf, ih]

theorem acceptedFrom_sublist (es : List Event) :
    ∀ r, List.Sublist (acceptedFrom r es) es := by
  induction es with
  | nil => intro r; simp [acceptedFrom]
  | cons e es ih =>
      intro r
      unfold acceptedFrom
      by_cases h : accepts r e
      · simp only [h, if_true]
        exact (ih _).cons₂ e
      · simp only [h, if_false]
        exact (ih _).cons e

end Tgstat

namespace Tgstat

theorem activeNode_eq (n : Node) (rest : List Node) (t : Int) :
    activeNode n rest t = (lastLE rest t).getD n := by
  cases rest with
  | nil => rfl
  | cons m mrest =>
      by_cases hm : t < m.ts
      · simp [activeNode, lastLE, hm]
      · simp [activeNode, lastLE, hm]

theorem lastLE_chainOf_value (t : Int) :
    ∀ (as : List Event) (v0 : Nat),
      (as.Pairwise fun a b => a.time ≤ b.time) →
      ∀ c, lastLE (chainOf v0 as) t = some c →
        c.value = u64 (v0 + ((as.filter fun e => decide (e.time ≤ t)).map Event.amount).sum) := by
  intro as
  induction as with
  | nil =>
      intro v0 _ c hc
      simp [chainOf, lastLE] at hc
  | cons e as ih =>
      intro v0 hs c hc
      simp only [chainOf, lastLE] at hc
      by_cases hte : t < e.time
      · simp [hte] at hc
      · simp only [if_neg hte, Option.some.injEq] at hc
        rw [activeNode_eq] at hc
        have hkeep : e.time ≤ t := not_lt.mp hte
        cases hlc : lastLE (chainOf (u64 (v0 + e.amount)) as) t with
        | none =>
            rw [hlc] at hc
            simp only [Option.getD_none] at hc
            have hnone : (as.filter fun e => decide (e.time ≤ t)) = [] := by
              cases as with
              | nil => rfl
              | cons a as2 =>
                  simp only [chainOf, lastLE] at hlc
                  by_cases hta : t < a.time
                  · rw [List.filter_eq_nil_iff]
                    intro x hx
                    have hax : a.time ≤ x.time := by
                      rcases List.mem_cons.mp hx with hx | hx
                      · simp [hx]
                      · have hs2 : List.Pairwise (fun a b : Event => a.time ≤ b.time) (a :: as2) :=
                          (List.pairwise_cons.mp hs).2
                        exact (List.pairwise_cons.mp hs2).1 x hx
                    simp only [decide_eq_true_eq]
                    omega
                  · simp [hta] at hlc
            rw [← hc]
            simp [List.filter_cons, hkeep, hnone]
        | some m =>
            rw [hlc] at hc
            simp only [Option.getD_some] at hc
            have hs' : List.Pairwise (fun a b : Event => a.time ≤ b.time) as :=
              (List.pairwise_cons.mp hs).2
            have hm := ih (u64 (v0 + e.amount)) hs' m hlc
            rw [hc] at hm
            rw [hm, u64_shift]
            simp [List.filter_cons, hkeep, Nat.add_assoc]

theorem wf_sorted {r : Recorder} (hr : WF r) {nm : String} {n : Node} {rest : List Node}
    (hf : lookupS r.first nm = some (n, rest)) : TsSorted (n :: rest) := by
  have := hr nm
  rw [hf] at this
  cases hc : lookupS r.current nm with
  | none => rw [hc] at this; exact absurd this (by simp [SeriesOK])
  | some cur => rw [hc] at this; exact this.2

theorem activeNode_through (t : Int) :
    ∀ (mid : List Node) (p n : Node) (rest : List Node),
      (∀ x ∈ mid, ¬ t < x.ts) → ¬ t < n.ts →
      activeNode p (mid ++ n :: rest) t = activeNode n rest t := by
  intro mid
  induction mid with
  | nil =>
      intro p n rest _ hn
      simp [activeNode, hn]
  | cons q mid ih =>
      intro p n rest hmid hn
      have hq : ¬ t < q.ts := hmid q (by simp)
      simp only [List.cons_append, activeNode, if_neg hq]
      exact ih q n rest (fun x hx => hmid x (by simp [hx])) hn

theorem lastLE_suffix {n0 n : Node} {rest0 rest : List Node} {t : Int}
    (hsort : TsSorted (n0 :: rest0)) (hsfx : (n :: rest) <:+ (n0 :: rest0))
    (hn : ¬ t < n.ts) : lastLE (n0 :: rest0) t = lastLE (n :: rest) t := by
  obtain ⟨pre, hpre⟩ := hsfx
  cases pre with
  | nil => simp at hpre; rw [hpre.1, hpre.2]
  | cons p pre =>
      have hall : ∀ x ∈ (p :: pre), ¬ t < x.ts := by
        intro x hx
        have hxn : x.ts ≤ n.ts := by
          have hpair : ∀ a ∈ (p :: pre), ∀ b ∈ (n :: rest), a.ts ≤ b.ts := by
            have := hpre ▸ hsort
            rw [TsSorted, List.pairwise_append] at this
            exact this.2.2
          exact hpair x hx n (by simp)
        omega
      have hp : ¬ t < p.ts := hall p (by simp)
      have hmid : ∀ x ∈ pre, ¬ t < x.ts := fun x hx => hall x (by simp [hx])
      rw [← hpre]
      simp only [List.cons_append, lastLE, if_neg hp, if_neg hn]
      rw [activeNode_through t pre p n rest hmid hn, activeNode_eq]

end Tgstat

namespace Tgstat

/-- The invariant of the walk's cursor map: every cursor is a pointer
into the (timestamp-sorted) full chain of its series. -/
def CurInv (chains : String → Option ChainPtr) (cur : List (String × ChainPtr)) : Prop :=
  ∀ nm n rest, lookupS cur nm = some (n, rest) →
    ∃ n0 rest0, chains nm = some (n0, rest0) ∧ (n :: rest) <:+ (n0 :: rest0)

/-- One walk step writes, for every line it emits, the forward-fill
value of that series' full chain at the step's time, and leaves every
cursor a pointer into its full chain. -/
theorem writeStep_sound (chains : String → Option ChainPtr)
    (hsort : ∀ nm n0 rest0, chains nm = some (n0, rest0) → TsSorted (n0 :: rest0))
    (t : Int) :
    ∀ (order : List String) (cur : List (String × ChainPtr)), CurInv chains cur →
      (∀ line ∈ (writeStep t order cur).1, line.time = t ∧
        ∃ n0 rest0 c, chains line.name = some (n0, rest0) ∧
          lastLE (n0 :: rest0) t = some c ∧ line.value = c.value) ∧
      CurInv chains (writeStep t order cur).2.1 := by
  intro order
  induction order with
  | nil =>
      intro cur hcur
      exact ⟨by simp [writeStep], hcur⟩
  | cons name names ih =>
      intro cur hcur
      cases hl : lookupS cur name with
      | none =>
          have heq : writeStep t (name :: names) cur = writeStep t names cur := by
            simp [writeStep, hl]
          rw [heq]
          exact ih cur hcur
      | some p =>
          obtain ⟨n, rest⟩ := p
          by_cases hts : t < n.ts
          · have hfw := forward_not_started rest hts
            have heq : writeStep t (name :: names) cur = writeStep t names cur := by
              simp [writeStep, hl, hfw]
            rw [heq]
            exact ih cur hcur
          · obtain ⟨c, crest, hfw, hlast, hsfx, _, _⟩ := forward_started hts
            obtain ⟨n0, rest0, hch, hsfx0⟩ := hcur name n rest hl
            have hlastfull : lastLE (n0 :: rest0) t = some c := by
              rw [lastLE_suffix (hsort _ _ _ hch) hsfx0 hts, hlast]
            have hcur1 : CurInv chains
                (if !crest.isEmpty then setS cur name (c, crest) else cur) := by
              cases hemp : crest.isEmpty with
              | true => simpa [hemp] using hcur
              | false =>
                  simp only [hemp, Bool.not_false, if_true]
                  intro nm nn nrest hnm
                  by_cases hname : nm = name
                  · subst hname
                    rw [lookupS_setS_self] at hnm
                    refine ⟨n0, rest0, hch, ?_⟩
                    injection hnm with hnm
                    injection hnm with hh1 hh2
                    subst hh1
                    subst hh2
                    exact hsfx.trans hsfx0
                  · rw [lookupS_setS_ne _ _ hname] at hnm
                    exact hcur nm nn nrest hnm
            have heq : writeStep t (name :: names) cur =
                (⟨name, c.value, t⟩ ::
                   (writeStep t names
                     (if !crest.isEmpty then setS cur name (c, crest) else cur)).1,
                 (writeStep t names
                     (if !crest.isEmpty then setS cur name (c, crest) else cur)).2.1,
                 (!crest.isEmpty) ||
                   (writeStep t names
                     (if !crest.isEmpty then setS cur name (c, crest) else cur)).2.2) := by
              simp [writeStep, hl, hfw]
            obtain ⟨ihl, ihc⟩ := ih _ hcur1
            rw [heq]
            constructor
            · intro line hline
              rcases List.mem_cons.mp hline with hline | hline
              · subst hline
                exact ⟨rfl, n0, rest0, c, hch, hlastfull, rfl⟩
              · exact ihl line hline
            · exact ihc

/-- Every line the walk emits carries the forward-fill value of its
series' full chain at the line's own timestamp. -/
theorem writeLoop_sound (chains : String → Option ChainPtr)
    (hsort : ∀ nm n0 rest0, chains nm = some (n0, rest0) → TsSorted (n0 :: rest0))
    (order : List String) (res : Int) :
    ∀ (fuel : Nat) (t : Int) cur groups, CurInv chains cur →
      writeLoop order res fuel t cur = some groups →
      ∀ line ∈ groups.flatten, ∃ n0 rest0 c, chains line.name = some (n0, rest0) ∧
        lastLE (n0 :: rest0) line.time = some c ∧ line.value = c.value := by
  intro fuel
  induction fuel with
  | zero => intro t cur groups _ hloop; simp [writeLoop] at hloop
  | succ fuel ih =>
      intro t cur groups hcur hloop
      obtain ⟨hstep, hstepcur⟩ := writeStep_sound chains hsort t order cur hcur
      simp only [writeLoop] at hloop
      cases hact : (writeStep t order cur).2.2 with
      | false =>
          rw [show writeStep t order cur =
              ((writeStep t order cur).1, (writeStep t order cur).2.1,
               (writeStep t order cur).2.2) from rfl, hact] at hloop
          simp only [if_false, Bool.false_eq_true, Option.some.injEq] at hloop
          subst hloop
          intro line hline
          simp only [List.flatten, List.append_nil] at hline
          obtain ⟨hlt, n0, rest0, c, hch, hlast, hval⟩ := hstep line (by simpa using hline)
          exact ⟨n0, rest0, c, hch, hlt ▸ hlast, hval⟩
      | true =>
          rw [show writeStep t order cur =
              ((writeStep t order cur).1, (writeStep t order cur).2.1,
               (writeStep t order cur).2.2) from rfl, hact] at hloop
          simp only [if_true] at hloop
          cases hrec : writeLoop order res fuel (t + res) (writeStep t order cur).2.1 with
          | none => rw [hrec] at hloop; simp at hloop
          | some g =>
              rw [hrec] at hloop
              simp only [Option.some.injEq] at hloop
              subst hloop
              intro line hline
              rw [List.flatten_cons, List.mem_append] at hline
              rcases hline with hline | hline
              · obtain ⟨hlt, n0, rest0, c, hch, hlast, hval⟩ := hstep line hline
                exact ⟨n0, rest0, c, hch, hlt ▸ hlast, hval⟩
              · exact ih (t + res) _ g hstepcur hrec line hline

end Tgstat

namespace Tgstat

theorem sumUpTo_eq (es : List Event) (name : String) (t : Int) :
    sumUpTo es name t =
      (((nameEvents (acceptedEvents es) name).filter fun e =>
          decide (e.time ≤ t)).map Event.amount).sum := by
  unfold sumUpTo nameEvents
  rw [List.filter_filter]
  have hf : (acceptedEvents es).filter (fun e => decide (e.name = name ∧ e.time ≤ t)) =
      (acceptedEvents es).filter (fun a => decide (a.time ≤ t) && decide (a.name = name)) := by
    apply List.filter_congr
    intro e _
    simp [Bool.and_comm]
  rw [hf]

/-- The events scored by the concrete single-series scenario of the
specification (`TestLinkedListRecorder`): five increments of amount 1 at
offsets 0, 10, 15, 20, 33 seconds from a start time `T`. -/
def fooEvents (T : Int) : List Event :=
  [⟨"foo", 1, T⟩, ⟨"foo", 1, T + 10⟩, ⟨"foo", 1, T + 15⟩,
   ⟨"foo", 1, T + 20⟩, ⟨"foo", 1, T + 33⟩]

/-- C1: for every recorder state built by replaying a sequence of
increments, at every step at which `Write` emits a sample for a series,
the emitted cumulative value equals the sum of the amounts of all
accepted increments of that series whose timestamp is `≤` the step's
time (the walk forward-fills with the latest chain node whose timestamp
is `≤ t`).  The sums are taken below the uint64 wrap. -/
theorem write_value_eq_accepted_sum (es : List Event) (res : Int) (order : List String)
    (hsum : (es.map Event.amount).sum < 2 ^ 64) :
    ∀ line ∈ ((applyEvents es).Write res order).1.flatten,
      line.value = sumUpTo es line.name line.time := by
  intro line hline
  have hwf := wf_applyEvents es
  have hsort : ∀ nm n0 rest0,
      lookupS (applyEvents es).first nm = some (n0, rest0) → TsSorted (n0 :: rest0) :=
    fun nm n0 rest0 h => wf_sorted hwf h
  have hcur0 : CurInv (fun nm => lookupS (applyEvents es).first nm) (applyEvents es).first :=
    fun nm n rest h => ⟨n, rest, h, List.suffix_refl _⟩
  unfold Recorder.Write at hline
  cases hst : startTime (applyEvents es).first with
  | none => simp [hst] at hline
  | some start =>
      simp only [hst] at hline
      cases hlp : writeLoop order res (writeFuel (applyEvents es) res) start
          (applyEvents es).first with
      | none => simp [hlp] at hline
      | some groups =>
          simp only [hlp] at hline
          obtain ⟨n0, rest0, c, hch, hlast, hval⟩ :=
            writeLoop_sound (fun nm => lookupS (applyEvents es).first nm) hsort order res
              _ start _ groups hcur0 hlp line hline
          have hA : chainOf 0 (nameEvents (acceptedEvents es) line.name) = n0 :: rest0 := by
            have happ := applyEvents_first es line.name
            rw [hch] at happ
            cases hA0 : chainOf 0 (nameEvents (acceptedEvents es) line.name) with
            | nil => rw [hA0] at happ; simp [chainPtrOf] at happ
            | cons x xs =>
                rw [hA0] at happ
                simp only [chainPtrOf, Option.some.injEq, Prod.mk.injEq] at happ
                rw [happ.1, happ.2]
          have hsortedA : List.Pairwise (fun a b : Event => a.time ≤ b.time)
              (nameEvents (acceptedEvents es) line.name) := by
            have hcs : TsSorted (chainOf 0 (nameEvents (acceptedEvents es) line.name)) := by
              rw [hA]; exact hsort _ _ _ hch
            have h1 : List.Pairwise (· ≤ ·)
                ((chainOf 0 (nameEvents (acceptedEvents es) line.name)).map Node.ts) :=
              List.pairwise_map.mpr hcs
            rw [chainOf_map_ts] at h1
            exact List.pairwise_map.mp h1
          have hcval := lastLE_chainOf_value line.time
            (nameEvents (acceptedEvents es) line.name) 0 hsortedA c (by rw [hA]; exact hlast)
          have hle : (((nameEvents (acceptedEvents es) line.name).filter fun e =>
              decide (e.time ≤ line.time)).map Event.amount).sum ≤
              (es.map Event.amount).sum := by
            refine List.Sublist.sum_le_sum (List.Sublist.map _ ?_) (by simp)
            exact (List.filter_sublist _).trans
              ((List.filter_sublist _).trans (acceptedFrom_sublist es Recorder.empty))
          rw [hval, hcval, Nat.zero_add, sumUpTo_eq]
          exact Nat.mod_eq_of_lt (lt_of_le_of_lt hle hsum)

/-- Witness for C1: in the concrete five-increment scenario the sample
emitted at `T + 20` carries the sum of the accepted increments up to
that time. -/
theorem write_value_eq_accepted_sum_witness :
    (⟨"foo", 4, 20⟩ : Line).value = sumUpTo (fooEvents 0) "foo" 20 := by
  have h := write_value_eq_accepted_sum (fooEvents 0) 10 ["foo"] (by decide)
    ⟨"foo", 4, 20⟩ (by decide)
  simpa using h

end Tgstat

namespace Tgstat

/-- C6: an increment whose timestamp is strictly earlier than the
current tail's is discarded: series chain, tail pointer and cumulative
total — the whole recorder — are unchanged, and the call does not fail
(`Inc` returns nothing; the condition only prints a diagnostic). -/
theorem inc_out_of_order_noop (r : Recorder) (name : String) (v : Nat) {t : Int}
    {tail : Node} (hc : lookupS r.current name = some tail) (ht : t < tail.ts) :
    r.Inc name v t = r := by
  simp [Recorder.Inc, hc, ht]

/-- Witness for C6: a series at timestamp 10 ignores an increment at 3. -/
theorem inc_out_of_order_noop_witness :
    (applyEvents [⟨"a", 1, 10⟩]).Inc "a" 5 3 = applyEvents [⟨"a", 1, 10⟩] :=
  @inc_out_of_order_noop (applyEvents [⟨"a", 1, 10⟩]) "a" 5 3 ⟨1, 10⟩
    (by decide) (by decide)

/-- C7: an increment whose timestamp is `≥` the current tail's —
including exactly equal — appends exactly one new tail node whose
cumulative value is the previous cumulative plus the amount, and moves
the tail pointer to it; nodes are never merged. -/
theorem inc_in_order_appends (r : Recorder) (name : String) (v : Nat) {t : Int}
    {tail n : Node} {rest : List Node}
    (hc : lookupS r.current name = some tail)
    (hf : lookupS r.first name = some (n, rest))
    (ht : tail.ts ≤ t) (hov : tail.value + v < 2 ^ 64) :
    lookupS (r.Inc name v t).first name = some (n, rest ++ [⟨tail.value + v, t⟩]) ∧
    lookupS (r.Inc name v t).current name = some ⟨tail.value + v, t⟩ := by
  have ht' : ¬ t < tail.ts := not_lt.mpr ht
  have hmod : u64 (tail.value + v) = tail.value + v := Nat.mod_eq_of_lt hov
  constructor
  · rw [inc_app_first hc ht', lookupS_mapS_self, hf]
    simp [hmod]
  · rw [inc_app_current hc ht', lookupS_setS_self, hmod]

/-- Witness for C7: an increment at exactly the tail's timestamp appends
a second node at the same instant. -/
theorem inc_in_order_appends_witness :
    lookupS ((applyEvents [⟨"a", 2, 5⟩]).Inc "a" 3 5).first "a" =
      some (⟨2, 5⟩, [⟨5, 5⟩]) ∧
    lookupS ((applyEvents [⟨"a", 2, 5⟩]).Inc "a" 3 5).current "a" = some ⟨5, 5⟩ :=
  @inc_in_order_appends (applyEvents [⟨"a", 2, 5⟩]) "a" 3 5 ⟨2, 5⟩ ⟨2, 5⟩ []
    (by decide) (by decide) (by decide) (by decide)

/-- C8 (code evaluated at the failing input): `labels.String` on the
empty label sequence computes `""[:len("")-1]`, an out-of-bounds Go
slice — the embedded slice yields `none` (a run-time panic in Go), so a
no-label metric identity faults rather than rendering `foo` with an
empty pair of braces; on non-empty labels the trailing comma is trimmed
as documented. -/
theorem labels_string_empty_faults :
    labelsString [] = none ∧ metricIdentity "foo" [] = none ∧
    labelsString [⟨"x", "foo"⟩] = some "x=\"foo\"" := by
  refine ⟨rfl, rfl, ?_⟩
  decide

/-! ### `Write` does not mutate the recorder (C10) -/

theorem writeStepSt_eq (rec : Recorder) (t : Int) :
    ∀ (order : List String) (cur : List (String × ChainPtr)),
      writeStepSt rec t order cur = (rec, writeStep t order cur) := by
  intro order
  induction order with
  | nil => intro cur; rfl
  | cons name names ih =>
      intro cur
      simp only [writeStepSt, writeStep]
      cases hl : lookupS cur name with
      | none =>
          simp only [hl]
          exact ih cur
      | some p =>
          obtain ⟨n, rest⟩ := p
          simp only [hl]
          cases hfw : forward n rest t with
          | mk o b =>
              cases o with
              | none =>
                  simp only [hfw]
                  exact ih cur
              | some nx =>
                  simp only [hfw]
                  simp [ih]

theorem writeLoopSt_eq (order : List String) (res : Int) :
    ∀ (fuel : Nat) (rec : Recorder) (t : Int) (cur : List (String × ChainPtr)),
      writeLoopSt order res fuel rec t cur = (rec, writeLoop order res fuel t cur) := by
  intro fuel
  induction fuel with
  | zero => intro rec t cur; rfl
  | succ fuel ih =>
      intro rec t cur
      simp only [writeLoopSt, writeLoop, writeStepSt_eq]
      cases writeStep t order cur with
      | mk lines p =>
          cases p with
          | mk cur1 active =>
              cases active with
              | false => simp
              | true =>
                  simp only [if_true]
                  rw [ih]
                  cases writeLoop order res fuel (t + res) cur1 <;> simp

/-- C10: `Write` never mutates the recorder: the walk works on a local
copy of the head map, so after the call the head map, the tail map and
every chain are exactly as before.  `WriteSt` threads the receiver
through every statement of `Write` and returns it unchanged, next to
exactly `Write`'s result. -/
theorem write_frame (r : Recorder) (res : Int) (order : List String) :
    r.WriteSt res order = (r.Write res order, r) := by
  unfold Recorder.WriteSt Recorder.Write
  cases startTime r.first with
  | none => rfl
  | some start =>
      simp only [writeLoopSt_eq]
      cases writeLoop order res (writeFuel r res) start r.first <;> simp

end Tgstat

namespace Tgstat

/-! ### Time translation

All comparisons in the recorder and the walk are between timestamps, so
shifting every timestamp by a constant shifts the output timestamps and
nothing else.  This reduces the concrete five-increment scenario at an
arbitrary start time `T` to the computable instance at `T = 0`. -/

/-- Shift a node's timestamp. -/
def Node.shift (d : Int) (n : Node) : Node := ⟨n.value, n.ts + d⟩

/-- Shift every node of a chain pointer. -/
def shiftChain (d : Int) (c : ChainPtr) : ChainPtr :=
  (c.1.shift d, c.2.map (Node.shift d))

/-- Shift every chain of a cursor map. -/
def shiftCur (d : Int) (m : List (String × ChainPtr)) : List (String × ChainPtr) :=
  m.map fun p => (p.1, shiftChain d p.2)

/-- Shift an output line's timestamp. -/
def Line.shift (d : Int) (l : Line) : Line := ⟨l.name, l.value, l.time + d⟩

/-- Shift an event's timestamp. -/
def Event.shift (d : Int) (e : Event) : Event := ⟨e.name, e.amount, e.time + d⟩

/-- Shift a whole recorder. -/
def Recorder.shift (d : Int) (r : Recorder) : Recorder :=
  ⟨shiftCur d r.first, r.current.map fun p => (p.1, p.2.shift d)⟩

theorem lookupS_map {α β : Type} (f : α → β) (m : List (String × α)) (k : String) :
    lookupS (m.map fun p => (p.1, f p.2)) k = (lookupS m k).map f := by
  induction m with
  | nil => rfl
  | cons p rest ih =>
      obtain ⟨k0, v0⟩ := p
      by_cases h : k0 = k <;> simp [lookupS, h, ih]

theorem setS_map {α β : Type} (f : α → β) (m : List (String × α)) (k : String) (v : α) :
    setS (m.map fun p => (p.1, f p.2)) k (f v) =
      (setS m k v).map fun p => (p.1, f p.2) := by
  induction m with
  | nil => simp [setS]
  | cons p rest ih =>
      obtain ⟨k0, v0⟩ := p
      by_cases h : k0 = k <;> simp [setS, h, ih]

theorem mapS_map {α β : Type} (f : α → β) (m : List (String × α)) (k : String)
    (g : α → α) (g' : β → β) (hcomm : ∀ v, f (g v) = g' (f v)) :
    mapS (m.map fun p => (p.1, f p.2)) k g' =
      (mapS m k g).map fun p => (p.1, f p.2) := by
  induction m with
  | nil => simp [mapS]
  | cons p rest ih =>
      obtain ⟨k0, v0⟩ := p
      by_cases h : k0 = k <;> simp [mapS, h, ih, hcomm]

theorem inc_shift (d : Int) (r : Recorder) (name : String) (v : Nat) (t : Int) :
    (r.shift d).Inc name v (t + d) = (r.Inc name v t).shift d := by
  unfold Recorder.Inc Recorder.shift shiftCur
  simp only [lookupS_map]
  cases hc : lookupS r.current name with
  | none =>
      simp only [Option.map_none']
      congr 1
      · exact setS_map (shiftChain d) r.first name (⟨u64 v, t⟩, [])
      · exact setS_map (Node.shift d) r.current name ⟨u64 v, t⟩
  | some cur =>
      simp only [Option.map_some']
      by_cases ht : t < cur.ts
      · have ht' : t + d < (cur.shift d).ts := by
          simp only [Node.shift]
          omega
        simp [ht, ht']
      · have ht' : ¬ t + d < (cur.shift d).ts := by
          simp only [Node.shift]
          omega
        simp only [if_neg ht, if_neg ht']
        congr 1
        · exact mapS_map (shiftChain d) r.first name
            (fun c => (c.1, c.2 ++ [⟨u64 (cur.value + v), t⟩]))
            (fun c => (c.1, c.2 ++ [⟨u64 ((cur.shift d).value + v), t + d⟩]))
            (by intro c; simp [shiftChain, Node.shift])
        · exact setS_map (Node.shift d) r.current name ⟨u64 (cur.value + v), t⟩

theorem applyFrom_shift (d : Int) (es : List Event) :
    ∀ r : Recorder, applyFrom (r.shift d) (es.map (Event.shift d)) =
      (applyFrom r es).shift d := by
  induction es with
  | nil => intro r; rfl
  | cons e es ih =>
      intro r
      show applyFrom ((r.shift d).Inc e.name e.amount (e.time + d)) (es.map (Event.shift d)) = _
      rw [inc_shift]
      exact ih (r.Inc e.name e.amount e.time)

theorem applyEvents_shift (d : Int) (es : List Event) :
    applyEvents (es.map (Event.shift d)) = (applyEvents es).shift d := by
  unfold applyEvents
  rw [← applyFrom_shift d es Recorder.empty]
  rfl

theorem forward_shift (d : Int) :
    ∀ (rest : List Node) (n : Node) (t : Int),
      forward (n.shift d) (rest.map (Node.shift d)) (t + d) =
        ((forward n rest t).1.map (shiftChain d), (forward n rest t).2) := by
  intro rest
  induction rest with
  | nil =>
      intro n t
      by_cases h : t < n.ts
      · have h' : t + d < (n.shift d).ts := by simp [Node.shift]; omega
        simp [forward, h, h']
      · have h' : ¬ t + d < (n.shift d).ts := by simp [Node.shift]; omega
        simp [forward, h, h', shiftChain]
  | cons m mrest ih =>
      intro n t
      by_cases h : t < n.ts
      · have h' : t + d < (n.shift d).ts := by simp [Node.shift]; omega
        simp [forward, h, h']
      · have h' : ¬ t + d < (n.shift d).ts := by simp [Node.shift]; omega
        by_cases hm : t < m.ts
        · have hm' : t + d < (m.shift d).ts := by simp [Node.shift]; omega
          simp [forward, h, h', hm, hm', shiftChain]
        · have hm' : ¬ t + d < (m.shift d).ts := by simp [Node.shift]; omega
          simp only [forward, List.map_cons, if_neg h, if_neg h', if_neg hm, if_neg hm']
          exact ih m t

theorem writeStep_shift (d : Int) (t : Int) :
    ∀ (order : List String) (cur : List (String × ChainPtr)),
      writeStep (t + d) order (shiftCur d cur) =
        ((writeStep t order cur).1.map (Line.shift d),
         shiftCur d (writeStep t order cur).2.1,
         (writeStep t order cur).2.2) := by
  intro order
  induction order with
  | nil => intro cur; rfl
  | cons name names ih =>
      intro cur
      have hlk : lookupS (shiftCur d cur) name = (lookupS cur name).map (shiftChain d) :=
        lookupS_map (shiftChain d) cur name
      simp only [writeStep, hlk]
      cases hl : lookupS cur name with
      | none => exact ih cur
      | some p =>
          obtain ⟨n, rest⟩ := p
          simp only [Option.map_some']
          rw [show shiftChain d (n, rest) = (n.shift d, rest.map (Node.shift d)) from rfl,
            forward_shift]
          cases hfw : forward n rest t with
          | mk o b =>
              cases o with
              | none => exact ih cur
              | some nx =>
                  simp only [Option.map_some']
                  have hset : setS (shiftCur d cur) name (shiftChain d nx) =
                      shiftCur d (setS cur name nx) :=
                    setS_map (shiftChain d) cur name nx
                  cases b with
                  | false =>
                      simp only [Bool.false_eq_true, if_false, Bool.false_or]
                      rw [ih cur]
                      rfl
                  | true =>
                      simp only [if_true, Bool.true_or]
                      rw [hset, ih (setS cur name nx)]
                      rfl

theorem writeLoop_shift (d : Int) (order : List String) (res : Int) :
    ∀ (fuel : Nat) (t : Int) (cur : List (String × ChainPtr)),
      writeLoop order res fuel (t + d) (shiftCur d cur) =
        (writeLoop order res fuel t cur).map (List.map (List.map (Line.shift d))) := by
  intro fuel
  induction fuel with
  | zero => intro t cur; rfl
  | succ fuel ih =>
      intro t cur
      simp only [writeLoop, writeStep_shift]
      cases writeStep t order cur with
      | mk lines p =>
          cases p with
          | mk cur1 active =>
              cases active with
              | false => simp
              | true =>
                  simp only [if_true]
                  rw [show t + d + res = (t + res) + d by ring, ih (t + res) cur1]
                  cases writeLoop order res fuel (t + res) cur1 <;> simp

theorem startTime_shift (d : Int) :
    ∀ m : List (String × ChainPtr),
      startTime (shiftCur d m) = (startTime m).map (· + d) := by
  intro m
  induction m with
  | nil => rfl
  | cons p rest ih =>
      obtain ⟨k, n, nrest⟩ := p
      show startTime ((k, shiftChain d (n, nrest)) :: shiftCur d rest) = _
      rw [show shiftChain d (n, nrest) = (n.shift d, nrest.map (Node.shift d)) from rfl]
      simp only [startTime]
      rw [ih]
      cases startTime rest with
      | none => simp [Node.shift]
      | some s => simp [Node.shift, min_add_add_right]

theorem getLastD_map {α β : Type} (f : α → β) :
    ∀ (l : List α) (x : α), (l.map f).getLastD (f x) = f (l.getLastD x) := by
  intro l
  induction l with
  | nil => intro x; rfl
  | cons a rest ih =>
      intro x
      simp only [List.map_cons, List.getLastD_cons]
      exact ih a

theorem lastTs_shift (d : Int) (c : ChainPtr) :
    lastTs (shiftChain d c) = lastTs c + d := by
  obtain ⟨n, rest⟩ := c
  simp only [lastTs, shiftChain]
  rw [getLastD_map (Node.shift d) rest n]
  rfl

theorem maxLastTs_shift (d : Int) :
    ∀ m : List (String × ChainPtr), m ≠ [] →
      maxLastTs (shiftCur d m) = maxLastTs m + d := by
  intro m
  induction m with
  | nil => intro h; exact absurd rfl h
  | cons p rest ih =>
      intro _
      cases rest with
      | nil =>
          simp [shiftCur, maxLastTs, lastTs_shift]
      | cons q rest2 =>
          show max (lastTs (shiftChain d p.2)) (maxLastTs (shiftCur d (q :: rest2))) =
            max (lastTs p.2) (maxLastTs (q :: rest2)) + d
          rw [ih (by simp), lastTs_shift]
          exact max_add_add_right _ _ _

theorem startTime_eq_none {m : List (String × ChainPtr)} :
    startTime m = none ↔ m = [] := by
  cases m with
  | nil => simp [startTime]
  | cons p rest => obtain ⟨k, n, nrest⟩ := p; simp [startTime]

theorem write_shift (d : Int) (r : Recorder) (res : Int) (order : List String) :
    (r.shift d).Write res order =
      ((r.Write res order).1.map (List.map (Line.shift d)), (r.Write res order).2) := by
  unfold Recorder.Write
  have hfirst : (r.shift d).first = shiftCur d r.first := rfl
  rw [hfirst, startTime_shift]
  cases hst : startTime r.first with
  | none =>
      simp
  | some start =>
      have hne : r.first ≠ [] := by
        intro h
        rw [h] at hst
        simp [startTime] at hst
      have hfuel : writeFuel (r.shift d) res = writeFuel r res := by
        unfold writeFuel
        rw [hfirst, maxLastTs_shift d r.first hne, startTime_shift, hst]
        simp only [Option.map_some', Option.getD_some]
        rw [show maxLastTs r.first + d - (start + d) = maxLastTs r.first - start by ring]
      simp only [Option.map_some', hfuel]
      rw [writeLoop_shift]
      cases writeLoop order res (writeFuel r res) start r.first with
      | none => simp
      | some groups => simp

/-- Rendering of one sample line of the `foo` series, given the
pre-computed literal prefix. -/
theorem render_foo (v : Nat) (s : String) (ts : Int)
    (h : "foo" ++ " " ++ toString v ++ " " = s) :
    Line.render ⟨"foo", v, ts⟩ = s ++ toString ts ++ "\n" := by
  show "foo" ++ " " ++ toString v ++ " " ++ toString ts ++ "\n" = _
  rw [h]

/-- The walk of the concrete five-increment scenario at start time 0,
fully computed. -/
theorem write_foo_base :
    (applyEvents (fooEvents 0)).Write 10 ["foo"] =
      ([[⟨"foo", 1, 0⟩], [⟨"foo", 2, 10⟩], [⟨"foo", 4, 20⟩],
        [⟨"foo", 4, 30⟩], [⟨"foo", 5, 40⟩]], none) := by
  decide

/-- C2: the single-series scenario — increments of 1 at offsets 0, 10,
15, 20, 33 seconds from any start time `T`, resolution 10 — renders
exactly the five samples `foo 1 T`, `foo 2 T+10`, `foo 4 T+20`,
`foo 4 T+30`, `foo 5 T+40`, in that order, each newline-terminated, and
nothing more. -/
theorem write_concrete_scenario (T : Int) :
    (applyEvents (fooEvents T)).Write 10 ["foo"] =
      ([[⟨"foo", 1, T⟩], [⟨"foo", 2, T + 10⟩], [⟨"foo", 4, T + 20⟩],
        [⟨"foo", 4, T + 30⟩], [⟨"foo", 5, T + 40⟩]], none) ∧
    renderLines ((applyEvents (fooEvents T)).Write 10 ["foo"]).1.flatten =
      String.join ["foo 1 " ++ toString T ++ "\n", "foo 2 " ++ toString (T + 10) ++ "\n",
        "foo 4 " ++ toString (T + 20) ++ "\n", "foo 4 " ++ toString (T + 30) ++ "\n",
        "foo 5 " ++ toString (T + 40) ++ "\n"] := by
  have hev : fooEvents T = (fooEvents 0).map (Event.shift T) := by
    simp [fooEvents, Event.shift]
    omega
  have h1 : (applyEvents (fooEvents T)).Write 10 ["foo"] =
      ([[⟨"foo", 1, T⟩], [⟨"foo", 2, T + 10⟩], [⟨"foo", 4, T + 20⟩],
        [⟨"foo", 4, T + 30⟩], [⟨"foo", 5, T + 40⟩]], none) := by
    rw [hev, applyEvents_shift, write_shift, write_foo_base]
    simp only [List.map_cons, List.map_nil, Line.shift]
    norm_num
    omega
  refine ⟨h1, ?_⟩
  rw [h1]
  show String.join [Line.render ⟨"foo", 1, T⟩, Line.render ⟨"foo", 2, T + 10⟩,
    Line.render ⟨"foo", 4, T + 20⟩, Line.render ⟨"foo", 4, T + 30⟩,
    Line.render ⟨"foo", 5, T + 40⟩] = _
  rw [render_foo 1 "foo 1 " T (by decide), render_foo 2 "foo 2 " (T + 10) (by decide),
    render_foo 4 "foo 4 " (T + 20) (by decide), render_foo 4 "foo 4 " (T + 30) (by decide),
    render_foo 5 "foo 5 " (T + 40) (by decide)]

end Tgstat

namespace Tgstat

/-! ### When is the walk still active?

`hasActiveMetrics` is set in a step exactly when some series is both
started (head timestamp `≤ t`) and unfinished (`t` before its last
node).  A series that has not started yet keeps the flag off — which is
what makes early termination possible. -/

/-- Some series named by `order` is started and unfinished at `t`. -/
def ActiveAt (chains : String → Option ChainPtr) (order : List String) (t : Int) : Prop :=
  ∃ nm ∈ order, ∃ n0 rest0, chains nm = some (n0, rest0) ∧
    n0.ts ≤ t ∧ t < lastTs (n0, rest0)

/-- Relation between one cursor entry and the series' full chain during
the walk: the cursor is a suffix, and is either still the whole chain or
has been advanced to a node already reached (timestamp `≤ t`). -/
def RelAt : Option ChainPtr → Option ChainPtr → Int → Prop
  | none, none, _ => True
  | some (n, rest), some (n0, rest0), t =>
      ((n :: rest) <:+ (n0 :: rest0)) ∧ ((n, rest) = (n0, rest0) ∨ n.ts ≤ t)
  | _, _, _ => False

/-- The walk invariant relating the whole cursor map to the chains. -/
def CurRel (chains : String → Option ChainPtr) (t : Int)
    (cur : List (String × ChainPtr)) : Prop :=
  ∀ nm, RelAt (lookupS cur nm) (chains nm) t

theorem getLastD_append_cons {α : Type} (y : α) (ys : List α) :
    ∀ (xs : List α) (d : α), (xs ++ y :: ys).getLastD d = ys.getLastD y := by
  intro xs
  induction xs with
  | nil => intro d; rw [List.nil_append, List.getLastD_cons]
  | cons x xs ih =>
      intro d
      rw [List.cons_append, List.getLastD_cons]
      exact ih x

theorem suffix_getLastD {α : Type} {a b : α} {l1 l2 : List α}
    (h : (a :: l1) <:+ (b :: l2)) : l1.getLastD a = l2.getLastD b := by
  obtain ⟨pre, hpre⟩ := h
  cases pre with
  | nil =>
      simp only [List.nil_append, List.cons.injEq] at hpre
      rw [hpre.1, hpre.2]
  | cons p pre =>
      simp only [List.cons_append, List.cons.injEq] at hpre
      rw [← hpre.2, getLastD_append_cons]

theorem lastTs_suffix {n n0 : Node} {rest rest0 : List Node}
    (h : (n :: rest) <:+ (n0 :: rest0)) : lastTs (n, rest) = lastTs (n0, rest0) := by
  simp only [lastTs]
  rw [suffix_getLastD h]

theorem forward_flag {n : Node} {rest : List Node} {t : Int}
    (hs : TsSorted (n :: rest)) (hts : ¬ t < n.ts) :
    ((forward n rest t).2 = true ↔ t < lastTs (n, rest)) := by
  obtain ⟨c, crest, hfw, _, hsfx, hcts, hnext⟩ := @forward_started n rest t hts
  rw [hfw]
  cases crest with
  | nil =>
      simp only [List.isEmpty_nil, Bool.not_true]
      constructor
      · intro h; exact absurd h (by simp)
      · intro h
        have : lastTs (n, rest) = lastTs (c, []) := (lastTs_suffix hsfx).symm
        rw [this] at h
        simp only [lastTs, List.getLastD] at h
        omega
  | cons m mrest =>
      simp only [List.isEmpty_cons, Bool.not_false, true_iff]
      have hm : t < m.ts := hnext m mrest rfl
      have hlast : lastTs (n, rest) = lastTs (c, m :: mrest) := (lastTs_suffix hsfx).symm
      rw [hlast]
      have hsc : TsSorted (c :: m :: mrest) :=
        List.Pairwise.sublist hsfx.sublist hs
      have hsm : TsSorted (m :: mrest) := (List.pairwise_cons.mp hsc).2
      have : m.ts ≤ (mrest.getLastD m).ts := ts_le_getLastD hsm m (by simp)
      simp only [lastTs, List.getLastD_cons]
      omega

end Tgstat

namespace Tgstat

theorem CurRel_mono {chains : String → Option ChainPtr} {t t' : Int} (h : t ≤ t')
    {cur : List (String × ChainPtr)} (hc : CurRel chains t cur) :
    CurRel chains t' cur := by
  intro nm
  have h0 := hc nm
  cases hl : lookupS cur nm with
  | none =>
      rw [hl] at h0
      cases hch : chains nm with
      | none => simp [RelAt]
      | some p =>
          obtain ⟨n0, rest0⟩ := p
          rw [hch] at h0
          exact absurd h0 (by simp [RelAt])
  | some p =>
      obtain ⟨n, rest⟩ := p
      cases hch : chains nm with
      | none =>
          rw [hl, hch] at h0
          exact absurd h0 (by simp [RelAt])
      | some q =>
          obtain ⟨n0, rest0⟩ := q
          rw [hl, hch] at h0
          simp only [RelAt] at h0 ⊢
          refine ⟨h0.1, ?_⟩
          rcases h0.2 with h2 | h2
          · exact Or.inl h2
          · exact Or.inr (le_trans h2 h)

theorem writeStep_relT (chains : String → Option ChainPtr) (t : Int) :
    ∀ (order : List String) (cur : List (String × ChainPtr)),
      CurRel chains t cur → CurRel chains t (writeStep t order cur).2.1 := by
  intro order
  induction order with
  | nil => intro cur hc; exact hc
  | cons name names ih =>
      intro cur hc
      cases hl : lookupS cur name with
      | none =>
          have heq : writeStep t (name :: names) cur = writeStep t names cur := by
            simp [writeStep, hl]
          rw [heq]
          exact ih cur hc
      | some p =>
          obtain ⟨n, rest⟩ := p
          by_cases hts : t < n.ts
          · have hfw := forward_not_started rest hts
            have heq : writeStep t (name :: names) cur = writeStep t names cur := by
              simp [writeStep, hl, hfw]
            rw [heq]
            exact ih cur hc
          · obtain ⟨c, crest, hfw, _, hsfx, hcts, _⟩ := forward_started hts
            have h0 := hc name
            rw [hl] at h0
            cases hch : chains name with
            | none => rw [hch] at h0; exact absurd h0 (by simp [RelAt])
            | some q =>
                obtain ⟨n0, rest0⟩ := q
                rw [hch] at h0
                simp only [RelAt] at h0
                have hcur1 : CurRel chains t
                    (if !crest.isEmpty then setS cur name (c, crest) else cur) := by
                  cases hemp : crest.isEmpty with
                  | true => simpa [hemp] using hc
                  | false =>
                      simp only [hemp, Bool.not_false, if_true]
                      intro nm
                      by_cases hname : nm = name
                      · subst hname
                        rw [lookupS_setS_self, hch]
                        simp only [RelAt]
                        exact ⟨hsfx.trans h0.1, Or.inr (not_lt.mp hcts)⟩
                      · rw [lookupS_setS_ne _ _ hname]
                        exact hc nm
                have heq : (writeStep t (name :: names) cur).2.1 =
                    (writeStep t names
                      (if !crest.isEmpty then setS cur name (c, crest) else cur)).2.1 := by
                  simp [writeStep, hl, hfw]
                rw [heq]
                exact ih _ hcur1

theorem writeStep_flag (chains : String → Option ChainPtr)
    (hsort : ∀ nm n0 rest0, chains nm = some (n0, rest0) → TsSorted (n0 :: rest0))
    (t : Int) :
    ∀ (order : List String), order.Nodup →
      ∀ (cur : List (String × ChainPtr)), CurRel chains t cur →
        ((writeStep t order cur).2.2 = true ↔ ActiveAt chains order t) := by
  intro order
  induction order with
  | nil =>
      intro _ cur _
      simp [writeStep, ActiveAt]
  | cons name names ih =>
      intro hnd cur hc
      have hnd' : names.Nodup := (List.nodup_cons.mp hnd).2
      have hnmem : name ∉ names := (List.nodup_cons.mp hnd).1
      have hsplit : ActiveAt chains (name :: names) t ↔
          ((∃ n0 rest0, chains name = some (n0, rest0) ∧
             n0.ts ≤ t ∧ t < lastTs (n0, rest0)) ∨ ActiveAt chains names t) := by
        constructor
        · rintro ⟨nm, hm, hrest⟩
          rcases List.mem_cons.mp hm with h | h
          · subst h
            exact Or.inl hrest
          · exact Or.inr ⟨nm, h, hrest⟩
        · rintro (h | ⟨nm, hm, hrest⟩)
          · exact ⟨name, by simp, h⟩
          · exact ⟨nm, by simp [hm], hrest⟩
      cases hl : lookupS cur name with
      | none =>
          have h0 := hc name
          rw [hl] at h0
          cases hch : chains name with
          | some q =>
              obtain ⟨n0, rest0⟩ := q
              rw [hch] at h0
              exact absurd h0 (by simp [RelAt])
          | none =>
              have heq : writeStep t (name :: names) cur = writeStep t names cur := by
                simp [writeStep, hl]
              rw [heq, hsplit, ih hnd' cur hc]
              simp [hch]
      | some p =>
          obtain ⟨n, rest⟩ := p
          have h0 := hc name
          rw [hl] at h0
          cases hch : chains name with
          | none => rw [hch] at h0; exact absurd h0 (by simp [RelAt])
          | some q =>
              obtain ⟨n0, rest0⟩ := q
              rw [hch] at h0
              simp only [RelAt] at h0
              by_cases hts : t < n.ts
              · -- not yet started; cursor must still be the whole chain
                have hfw := forward_not_started rest hts
                have heq : writeStep t (name :: names) cur = writeStep t names cur := by
                  simp [writeStep, hl, hfw]
                have hn0 : n0 = n ∧ rest0 = rest := by
                  rcases h0.2 with h2 | h2
                  · have h2' := h2
                    rw [Prod.mk.injEq] at h2'
                    exact ⟨h2'.1.symm, h2'.2.symm⟩
                  · omega
                rw [heq, hsplit, ih hnd' cur hc]
                have : ¬ (∃ n1 rest1, chains name = some (n1, rest1) ∧
                    n1.ts ≤ t ∧ t < lastTs (n1, rest1)) := by
                  rintro ⟨n1, rest1, hch1, hle, -⟩
                  rw [hch] at hch1
                  simp only [Option.some.injEq, Prod.mk.injEq] at hch1
                  rw [← hch1.1, hn0.1] at hle
                  omega
                simp [this]
              · obtain ⟨c, crest, hfw, _, hsfx, hcts, _⟩ := forward_started hts
                have hsorted : TsSorted (n :: rest) :=
                  List.Pairwise.sublist h0.1.sublist (hsort _ _ _ hch)
                have hflag := forward_flag hsorted hts
                rw [hfw] at hflag
                have hcur1 : CurRel chains t
                    (if !crest.isEmpty then setS cur name (c, crest) else cur) := by
                  cases hemp : crest.isEmpty with
                  | true => simpa [hemp] using hc
                  | false =>
                      simp only [hemp, Bool.not_false, if_true]
                      intro nm
                      by_cases hname : nm = name
                      · subst hname
                        rw [lookupS_setS_self, hch]
                        simp only [RelAt]
                        exact ⟨hsfx.trans h0.1, Or.inr (not_lt.mp hcts)⟩
                      · rw [lookupS_setS_ne _ _ hname]
                        exact hc nm
                have heq : (writeStep t (name :: names) cur).2.2 =
                    ((!crest.isEmpty) ||
                     (writeStep t names
                       (if !crest.isEmpty then setS cur name (c, crest) else cur)).2.2) := by
                  simp [writeStep, hl, hfw]
                have hname_act : ((!crest.isEmpty) = true ↔
                    (∃ n1 rest1, chains name = some (n1, rest1) ∧
                      n1.ts ≤ t ∧ t < lastTs (n1, rest1))) := by
                  rw [hflag]
                  constructor
                  · intro h
                    refine ⟨n0, rest0, hch, ?_, ?_⟩
                    · have hmem : n ∈ n0 :: rest0 := h0.1.subset (by simp)
                      have := head_ts_le (hsort _ _ _ hch) hmem
                      omega
                    · rw [← lastTs_suffix h0.1]
                      exact h
                  · rintro ⟨n1, rest1, hch1, -, hlt⟩
                    rw [hch] at hch1
                    simp only [Option.some.injEq, Prod.mk.injEq] at hch1
                    rw [lastTs_suffix h0.1, hch1.1, hch1.2]
                    exact hlt
                rw [heq, hsplit, Bool.or_eq_true]
                exact or_congr hname_act (ih hnd' _ hcur1)

end Tgstat

namespace Tgstat

theorem writeLoop_length (chains : String → Option ChainPtr)
    (hsort : ∀ nm n0 rest0, chains nm = some (n0, rest0) → TsSorted (n0 :: rest0))
    (order : List String) (hnd : order.Nodup) (res : Int) (hres : 0 ≤ res) :
    ∀ (fuel : Nat) (t : Int) (cur : List (String × ChainPtr)) (groups : List (List Line)),
      CurRel chains t cur → writeLoop order res fuel t cur = some groups →
      (∀ j : Nat, j + 1 < groups.length → ActiveAt chains order (t + (j : Int) * res)) ∧
      ¬ ActiveAt chains order (t + ((groups.length : Int) - 1) * res) := by
  intro fuel
  induction fuel with
  | zero => intro t cur groups _ h; simp [writeLoop] at h
  | succ fuel ih =>
      intro t cur groups hc hloop
      have hflag := writeStep_flag chains hsort t order hnd cur hc
      simp only [writeLoop] at hloop
      cases hact : (writeStep t order cur).2.2 with
      | false =>
          rw [show writeStep t order cur =
              ((writeStep t order cur).1, (writeStep t order cur).2.1,
               (writeStep t order cur).2.2) from rfl, hact] at hloop
          simp only [Bool.false_eq_true, if_false, Option.some.injEq] at hloop
          subst hloop
          constructor
          · intro j hj
            simp at hj
          · have hne : ¬ ActiveAt chains order t := by
              rw [hact] at hflag
              simpa using hflag
            intro hA
            apply hne
            have heq : t + ((([(writeStep t order cur).1].length : Nat) : Int) - 1) * res
                = t := by
              simp
            rwa [heq] at hA
      | true =>
          rw [show writeStep t order cur =
              ((writeStep t order cur).1, (writeStep t order cur).2.1,
               (writeStep t order cur).2.2) from rfl, hact] at hloop
          simp only [if_true] at hloop
          cases hrec : writeLoop order res fuel (t + res) (writeStep t order cur).2.1 with
          | none => rw [hrec] at hloop; simp at hloop
          | some g =>
              rw [hrec] at hloop
              simp only [Option.some.injEq] at hloop
              subst hloop
              have hc1 : CurRel chains (t + res) (writeStep t order cur).2.1 :=
                CurRel_mono (by omega) (writeStep_relT chains t order cur hc)
              obtain ⟨H1, H2⟩ := ih (t + res) _ g hc1 hrec
              rw [hact] at hflag
              constructor
              · intro j hj
                cases j with
                | zero =>
                    rw [show t + ((0 : Nat) : Int) * res = t by push_cast; ring]
                    exact hflag.mp rfl
                | succ j' =>
                    have hj' : j' + 1 < g.length := by
                      simpa [List.length_cons] using hj
                    have hh := H1 j' hj'
                    rw [show t + res + (j' : Int) * res =
                        t + (((j' + 1 : Nat) : Int)) * res by push_cast; ring] at hh
                    exact hh
              · have hh := H2
                rw [show t + res + ((g.length : Int) - 1) * res =
                    t + ((((g.length + 1 : Nat) : Int)) - 1) * res by push_cast; ring] at hh
                simpa [List.length_cons] using hh

theorem writeLoop_terminates (chains : String → Option ChainPtr)
    (hsort : ∀ nm n0 rest0, chains nm = some (n0, rest0) → TsSorted (n0 :: rest0))
    (order : List String) (hnd : order.Nodup) (res : Int) (hres : 0 ≤ res) :
    ∀ (fuel k : Nat) (t : Int) (cur : List (String × ChainPtr)), CurRel chains t cur →
      ¬ ActiveAt chains order (t + (k : Int) * res) → k < fuel →
      ∃ groups, writeLoop order res fuel t cur = some groups := by
  intro fuel
  induction fuel with
  | zero => intro k t cur _ _ h; omega
  | succ fuel ih =>
      intro k t cur hc hstop hk
      have hflag := writeStep_flag chains hsort t order hnd cur hc
      simp only [writeLoop]
      rw [show writeStep t order cur =
          ((writeStep t order cur).1, (writeStep t order cur).2.1,
           (writeStep t order cur).2.2) from rfl]
      cases hact : (writeStep t order cur).2.2 with
      | false => exact ⟨_, rfl⟩
      | true =>
          have hA : ActiveAt chains order t := by
            rw [hact] at hflag
            exact hflag.mp rfl
          cases k with
          | zero =>
              rw [show t + ((0 : Nat) : Int) * res = t by push_cast; ring] at hstop
              exact absurd hA hstop
          | succ k' =>
              have hc1 : CurRel chains (t + res) (writeStep t order cur).2.1 :=
                CurRel_mono (by omega) (writeStep_relT chains t order cur hc)
              have hstop' : ¬ ActiveAt chains order (t + res + (k' : Int) * res) := by
                rw [show t + res + (k' : Int) * res =
                    t + (((k' + 1 : Nat) : Int)) * res by push_cast; ring]
                exact hstop
              obtain ⟨g, hg⟩ := ih k' (t + res) _ hc1 hstop' (by omega)
              rw [hg]
              exact ⟨_, rfl⟩

end Tgstat

namespace Tgstat

theorem lookupS_some_mem {α : Type} {m : List (String × α)} {k : String} {v : α}
    (h : lookupS m k = some v) : (k, v) ∈ m := by
  induction m with
  | nil => simp [lookupS] at h
  | cons p rest ih =>
      obtain ⟨k0, v0⟩ := p
      by_cases h0 : k0 = k
      · subst h0
        simp [lookupS] at h
        simp [h]
      · simp only [lookupS, if_neg h0] at h
        simp [ih h]

theorem mem_lookupS_nodup {α : Type} {m : List (String × α)}
    (hnd : (m.map Prod.fst).Nodup) {k : String} {v : α} (h : (k, v) ∈ m) :
    lookupS m k = some v := by
  induction m with
  | nil => simp at h
  | cons p rest ih =>
      obtain ⟨k0, v0⟩ := p
      simp only [List.map_cons, List.nodup_cons] at hnd
      rcases List.mem_cons.mp h with h1 | h1
      · injection h1 with h1a h1b
        subst h1a
        simp [lookupS, h1b]
      · have hk : k0 ≠ k := by
          intro he
          subst he
          exact hnd.1 (List.mem_map.mpr ⟨(k0, v), h1, rfl⟩)
        simp only [lookupS, if_neg hk]
        exact ih hnd.2 h1

theorem lookupS_isSome_iff {α : Type} (m : List (String × α)) (k : String) :
    (lookupS m k).isSome ↔ k ∈ m.map Prod.fst := by
  induction m with
  | nil => simp [lookupS]
  | cons p rest ih =>
      obtain ⟨k0, v0⟩ := p
      by_cases h0 : k0 = k
      · subst h0
        simp [lookupS]
      · simp [lookupS, h0, ih, Ne.symm h0]

theorem lastTs_le_maxLastTs {m : List (String × ChainPtr)} {k : String} {c : ChainPtr}
    (h : (k, c) ∈ m) : lastTs c ≤ maxLastTs m := by
  induction m with
  | nil => simp at h
  | cons p rest ih =>
      cases rest with
      | nil =>
          simp only [List.mem_cons, List.not_mem_nil, or_false] at h
          subst h
          simp [maxLastTs]
      | cons q rest2 =>
          rcases List.mem_cons.mp h with h1 | h1
          · subst h1
            exact le_max_left _ _
          · exact le_trans (ih h1) (le_max_right _ _)

theorem startTime_le {m : List (String × ChainPtr)} {s : Int}
    (hs : startTime m = some s) {k : String} {c : ChainPtr} (h : (k, c) ∈ m) :
    s ≤ c.1.ts := by
  induction m generalizing s with
  | nil => simp at h
  | cons p rest ih =>
      obtain ⟨k0, n0, rest0⟩ := p
      simp only [startTime, Option.some.injEq] at hs
      rcases List.mem_cons.mp h with h1 | h1
      · rw [Prod.mk.injEq] at h1
        obtain ⟨-, h1b⟩ := h1
        subst h1b
        simp only
        cases hr : startTime rest with
        | none =>
            rw [hr] at hs
            simp only at hs
            omega
        | some s2 =>
            rw [hr] at hs
            simp only at hs
            rw [← hs]
            exact min_le_left _ _
      · cases hr : startTime rest with
        | none =>
            exfalso
            cases rest with
            | nil => simp at h1
            | cons q rest2 =>
                obtain ⟨k1, c1n, c1rest⟩ := q
                simp [startTime] at hr
        | some s2 =>
            rw [hr] at hs
            have h2 := ih hr h1
            simp only at hs
            have hmin : s ≤ s2 := by rw [← hs]; exact min_le_right _ _
            omega

theorem startTime_mem {m : List (String × ChainPtr)} {s : Int}
    (hs : startTime m = some s) : ∃ p ∈ m, p.2.1.ts = s := by
  induction m generalizing s with
  | nil => simp [startTime] at hs
  | cons p rest ih =>
      obtain ⟨k0, n0, rest0⟩ := p
      simp only [startTime, Option.some.injEq] at hs
      cases hr : startTime rest with
      | none =>
          rw [hr] at hs
          simp only at hs
          exact ⟨(k0, n0, rest0), by simp, hs⟩
      | some s2 =>
          rw [hr] at hs
          simp only at hs
          by_cases hle : n0.ts ≤ s2
          · refine ⟨(k0, n0, rest0), by simp, ?_⟩
            simp only
            rw [← hs]
            omega
          · obtain ⟨q, hq, hqs⟩ := ih hr
            refine ⟨q, by simp [hq], ?_⟩
            rw [hqs, ← hs]
            omega

theorem mem_keys_setS {α : Type} (m : List (String × α)) (k k' : String) (v : α) :
    k' ∈ (setS m k v).map Prod.fst ↔ k' ∈ m.map Prod.fst ∨ k' = k := by
  induction m with
  | nil => simp [setS]
  | cons p rest ih =>
      obtain ⟨k0, v0⟩ := p
      by_cases h0 : k0 = k
      · subst h0
        have hset : setS ((k0, v0) :: rest) k0 v = (k0, v) :: rest := by simp [setS]
        rw [hset]
        simp only [List.map_cons, List.mem_cons]
        tauto
      · have hset : setS ((k0, v0) :: rest) k v = (k0, v0) :: setS rest k v := by
          simp [setS, h0]
        rw [hset]
        simp only [List.map_cons, List.mem_cons, ih]
        tauto

theorem keys_nodup_setS {α : Type} (m : List (String × α)) (k : String) (v : α)
    (hnd : (m.map Prod.fst).Nodup) : ((setS m k v).map Prod.fst).Nodup := by
  induction m with
  | nil => simp [setS]
  | cons p rest ih =>
      obtain ⟨k0, v0⟩ := p
      simp only [List.map_cons, List.nodup_cons] at hnd
      by_cases h0 : k0 = k
      · subst h0
        have hset : setS ((k0, v0) :: rest) k0 v = (k0, v) :: rest := by simp [setS]
        rw [hset]
        simp only [List.map_cons, List.nodup_cons]
        exact hnd
      · have hset : setS ((k0, v0) :: rest) k v = (k0, v0) :: setS rest k v := by
          simp [setS, h0]
        rw [hset]
        simp only [List.map_cons, List.nodup_cons]
        refine ⟨?_, ih hnd.2⟩
        rw [mem_keys_setS]
        rintro (h | h)
        · exact hnd.1 h
        · exact h0 h

theorem keys_mapS {α : Type} (m : List (String × α)) (k : String) (f : α → α) :
    (mapS m k f).map Prod.fst = m.map Prod.fst := by
  induction m with
  | nil => rfl
  | cons p rest ih =>
      obtain ⟨k0, v0⟩ := p
      by_cases h0 : k0 = k <;> simp [mapS, h0, ih]

theorem keys_nodup_applyFrom (es : List Event) :
    ∀ r : Recorder, (r.first.map Prod.fst).Nodup →
      ((applyFrom r es).first.map Prod.fst).Nodup := by
  induction es with
  | nil => intro r h; exact h
  | cons e es ih =>
      intro r h
      apply ih
      unfold Recorder.Inc
      cases lookupS r.current e.name with
      | none => exact keys_nodup_setS _ _ _ h
      | some cur =>
          by_cases ht : e.time < cur.ts
          · simpa [ht] using h
          · simp only [if_neg ht]
            rw [keys_mapS]
            exact h

theorem keys_nodup_applyEvents (es : List Event) :
    (((applyEvents es).first.map Prod.fst)).Nodup :=
  keys_nodup_applyFrom es Recorder.empty (by simp [Recorder.empty])

theorem curRel_init (m : List (String × ChainPtr)) (t : Int) :
    CurRel (fun nm => lookupS m nm) t m := by
  intro nm
  cases hl : lookupS m nm with
  | none => simp [RelAt, hl]
  | some p =>
      obtain ⟨n, rest⟩ := p
      simp [RelAt, hl]

theorem activeAt_iff_stillActive {m : List (String × ChainPtr)} {order : List String}
    (horder : order.Perm (m.map Prod.fst)) (hnd : (m.map Prod.fst).Nodup) (t : Int) :
    ActiveAt (fun nm => lookupS m nm) order t ↔ stillActive m t = true := by
  unfold ActiveAt stillActive
  rw [List.any_eq_true]
  constructor
  · rintro ⟨nm, -, n0, rest0, hch, hle, hlt⟩
    refine ⟨(nm, n0, rest0), lookupS_some_mem hch, ?_⟩
    simp [hle, hlt]
  · rintro ⟨p, hp, hcond⟩
    obtain ⟨nm, n0, rest0⟩ := p
    simp only [Bool.and_eq_true, decide_eq_true_eq] at hcond
    refine ⟨nm, ?_, n0, rest0, mem_lookupS_nodup hnd hp, hcond.1, hcond.2⟩
    rw [horder.mem_iff]
    exact List.mem_map.mpr ⟨(nm, n0, rest0), hp, rfl⟩

end Tgstat

namespace Tgstat

/-- On a reachable recorder whose head map is non-empty, the walk
terminates within the modelled fuel for every positive resolution: the
loop reaches a step at which no series is started-and-unfinished. -/
theorem write_total (es : List Event) (res : Int) (order : List String)
    (hres : 0 < res) (horder : order.Perm ((applyEvents es).first.map Prod.fst))
    {start : Int} (hst : startTime (applyEvents es).first = some start) :
    ∃ groups,
      writeLoop order res (writeFuel (applyEvents es) res) start
        (applyEvents es).first = some groups ∧
      (applyEvents es).Write res order = (groups, none) := by
  have hnd : order.Nodup := (horder.symm).nodup (keys_nodup_applyEvents es)
  have hsort : ∀ nm n0 rest0,
      lookupS (applyEvents es).first nm = some (n0, rest0) →
        TsSorted (n0 :: rest0) :=
    fun nm n0 rest0 h => wf_sorted (wf_applyEvents es) h
  have hcr := curRel_init (applyEvents es).first start
  have hrr : 0 < res.toNat := by omega
  have hres' : ((res.toNat : Int)) = res := Int.toNat_of_nonneg (le_of_lt hres)
  have hk : ¬ ActiveAt (fun nm => lookupS (applyEvents es).first nm) order
      (start + (((maxLastTs (applyEvents es).first - start).toNat / res.toNat + 1 : Nat) : Int) * res) := by
    rintro ⟨nm, -, n0, rest0, hch, hle, hlt⟩
    have hmem := lookupS_some_mem hch
    have hmax : lastTs (n0, rest0) ≤ maxLastTs (applyEvents es).first :=
      lastTs_le_maxLastTs hmem
    have htm : maxLastTs (applyEvents es).first ≤
        start + (((maxLastTs (applyEvents es).first - start).toNat / res.toNat + 1 : Nat) : Int) * res := by
      by_cases hMs : maxLastTs (applyEvents es).first ≤ start
      · have hpos : (0:Int) <
            (((maxLastTs (applyEvents es).first - start).toNat / res.toNat + 1 : Nat) : Int) * res := by
          apply mul_pos _ hres
          exact_mod_cast Nat.succ_pos _
        linarith
      · push_neg at hMs
        have hDlt : (maxLastTs (applyEvents es).first - start).toNat <
            ((maxLastTs (applyEvents es).first - start).toNat / res.toNat + 1) * res.toNat := by
          have h1 : (maxLastTs (applyEvents es).first - start).toNat % res.toNat < res.toNat :=
            Nat.mod_lt _ hrr
          have h2 : res.toNat * ((maxLastTs (applyEvents es).first - start).toNat / res.toNat) +
              (maxLastTs (applyEvents es).first - start).toNat % res.toNat =
              (maxLastTs (applyEvents es).first - start).toNat :=
            Nat.div_add_mod _ _
          have h3 : ((maxLastTs (applyEvents es).first - start).toNat / res.toNat + 1) * res.toNat =
              res.toNat * ((maxLastTs (applyEvents es).first - start).toNat / res.toNat) + res.toNat := by
            ring
          linarith
        have hcast : ((maxLastTs (applyEvents es).first - start).toNat : Int) <
            ((((maxLastTs (applyEvents es).first - start).toNat / res.toNat + 1 : Nat)) : Int) *
              ((res.toNat : Int)) := by
          exact_mod_cast hDlt
        have hD : (((maxLastTs (applyEvents es).first - start).toNat : Int)) =
            maxLastTs (applyEvents es).first - start := by omega
        rw [hres'] at hcast
        linarith
    linarith
  have hfuel : (maxLastTs (applyEvents es).first - start).toNat / res.toNat + 1 <
      writeFuel (applyEvents es) res := by
    unfold writeFuel
    rw [hst]
    simp
  obtain ⟨groups, hloop⟩ := writeLoop_terminates
    (fun nm => lookupS (applyEvents es).first nm) hsort order hnd res
    (le_of_lt hres) (writeFuel (applyEvents es) res)
    ((maxLastTs (applyEvents es).first - start).toNat / res.toNat + 1)
    start (applyEvents es).first hcr hk hfuel
  refine ⟨groups, hloop, ?_⟩
  simp [Recorder.Write, hst, hloop]

/-- C5: `Write` on a recorder with zero recorded series fails with
`ErrNoRecords` and writes nothing to the sink; and this is the only hard
failure — on any reachable non-empty recorder (with a positive
resolution and the iteration order ranging over the stored series) the
walk terminates and `Write` returns its output with no error. -/
theorem write_empty_only_failure (es : List Event) (res : Int) (order : List String)
    (hres : 0 < res) (horder : order.Perm ((applyEvents es).first.map Prod.fst)) :
    (∀ rr : Recorder, rr.first = [] →
      rr.Write res order = ([], some WriteError.noRecords)) ∧
    ((applyEvents es).first ≠ [] →
      ∃ groups, (applyEvents es).Write res order = (groups, none)) := by
  constructor
  · intro rr h
    simp [Recorder.Write, h, startTime]
  · intro hne
    cases hst : startTime (applyEvents es).first with
    | none => exact absurd (startTime_eq_none.mp hst) hne
    | some start =>
        obtain ⟨groups, -, hW⟩ := write_total es res order hres horder hst
        exact ⟨groups, hW⟩

/-- Witness for C5: the empty recorder fails with `ErrNoRecords` and
emits nothing, while a one-series recorder succeeds. -/
theorem write_empty_only_failure_witness :
    (Recorder.empty.Write 10 ["a"] = ([], some WriteError.noRecords)) ∧
    ∃ groups, (applyEvents [⟨"a", 1, 0⟩]).Write 10 ["a"] = (groups, none) :=
  ⟨(write_empty_only_failure [⟨"a", 1, 0⟩] 10 ["a"] (by decide) (by decide)).1
      Recorder.empty rfl,
   (write_empty_only_failure [⟨"a", 1, 0⟩] 10 ["a"] (by decide) (by decide)).2
      (by decide)⟩

end Tgstat

namespace Tgstat

theorem writeLoop_ne_nil (order : List String) (res : Int) :
    ∀ (fuel : Nat) (t : Int) (cur : List (String × ChainPtr)) (groups : List (List Line)),
      writeLoop order res fuel t cur = some groups → groups ≠ [] := by
  intro fuel
  induction fuel with
  | zero => intro t cur groups h; simp [writeLoop] at h
  | succ fuel ih =>
      intro t cur groups h
      simp only [writeLoop] at h
      rw [show writeStep t order cur =
          ((writeStep t order cur).1, (writeStep t order cur).2.1,
           (writeStep t order cur).2.2) from rfl] at h
      cases hact : (writeStep t order cur).2.2 with
      | false =>
          rw [hact] at h
          simp only [Bool.false_eq_true, if_false, Option.some.injEq] at h
          subst h
          simp
      | true =>
          rw [hact] at h
          simp only [if_true] at h
          cases hrec : writeLoop order res fuel (t + res) (writeStep t order cur).2.1 with
          | none => rw [hrec] at h; simp at h
          | some g =>
              rw [hrec] at h
              simp only [Option.some.injEq] at h
              subst h
              simp

/-- C3 (counterexample): series "a" has a single increment at time 0 and
series "b" a single increment at time 100; with resolution 10 the claim
predicts ⌈(100−0)/10⌉+1 = 11 steps, but the walk breaks after a single
step because "b" has not started and "a" is finished. -/
theorem write_step_count_counterexample :
    (((applyEvents [⟨"a", 1, 0⟩, ⟨"b", 1, 100⟩]).Write 10 ["a", "b"]).1).length = 1 ∧
    claimedStepCount (applyEvents [⟨"a", 1, 0⟩, ⟨"b", 1, 100⟩]) 10 = 11 := by
  decide

/-- C3 (amended): for a non-empty reachable recorder and positive
resolution the walk always terminates; its step count equals
⌈(max last timestamp − min head timestamp)/resolution⌉ + 1 whenever some
series spans the whole window — i.e. one series both starts at the
global start time and ends at the maximal last-node timestamp.  (Without
that hypothesis the walk can stop earlier, as the counterexample
shows.) -/
theorem write_step_count (es : List Event) (res : Int) (order : List String)
    (hres : 0 < res)
    (horder : order.Perm ((applyEvents es).first.map Prod.fst))
    (hwit : ∃ p ∈ (applyEvents es).first,
      startTime (applyEvents es).first = some p.2.1.ts ∧
      lastTs p.2 = maxLastTs (applyEvents es).first) :
    ∃ groups, (applyEvents es).Write res order = (groups, none) ∧
      groups.length = claimedStepCount (applyEvents es) res := by
  obtain ⟨p, hpmem, hpstart, hpmax⟩ := hwit
  obtain ⟨nm, n0, rest0⟩ := p
  simp only at hpstart hpmax
  have hndk := keys_nodup_applyEvents es
  have hnd : order.Nodup := (horder.symm).nodup hndk
  have hsort : ∀ nm1 n1 rest1,
      lookupS (applyEvents es).first nm1 = some (n1, rest1) → TsSorted (n1 :: rest1) :=
    fun nm1 n1 rest1 h => wf_sorted (wf_applyEvents es) h
  have hlk : lookupS (applyEvents es).first nm = some (n0, rest0) :=
    mem_lookupS_nodup hndk hpmem
  obtain ⟨groups, hloop, hW⟩ := write_total es res order hres horder hpstart
  refine ⟨groups, hW, ?_⟩
  obtain ⟨H1, H2⟩ := writeLoop_length (fun nm1 => lookupS (applyEvents es).first nm1)
    hsort order hnd res (le_of_lt hres) _ n0.ts (applyEvents es).first groups
    (curRel_init _ _) hloop
  have hLpos : groups ≠ [] := writeLoop_ne_nil order res _ n0.ts _ groups hloop
  have hL1 : 1 ≤ groups.length := by
    cases groups with
    | nil => exact absurd rfl hLpos
    | cons g gs => simp
  -- the spanning series keeps the walk alive below the maximal timestamp
  have hMstart : n0.ts ≤ maxLastTs (applyEvents es).first := by
    rw [← hpmax]
    exact ts_le_getLastD (hsort nm n0 rest0 hlk) n0 (by simp)
  have hup : maxLastTs (applyEvents es).first ≤
      n0.ts + ((groups.length : Int) - 1) * res := by
    by_contra hlt
    push_neg at hlt
    apply H2
    refine ⟨nm, ?_, n0, rest0, hlk, ?_, ?_⟩
    · rw [horder.mem_iff]
      exact List.mem_map.mpr ⟨(nm, n0, rest0), hpmem, rfl⟩
    · have : (0:Int) ≤ ((groups.length : Int) - 1) * res := by
        apply mul_nonneg _ (le_of_lt hres)
        have : (1 : Int) ≤ (groups.length : Int) := by exact_mod_cast hL1
        omega
      omega
    · rw [show lastTs (n0, rest0) = maxLastTs (applyEvents es).first from hpmax]
      exact hlt
  have hdown : ∀ j : Nat, j + 1 < groups.length →
      n0.ts + (j : Int) * res < maxLastTs (applyEvents es).first := by
    intro j hj
    obtain ⟨nm1, -, n1, rest1, hch1, -, hlt1⟩ := H1 j hj
    have : lastTs (n1, rest1) ≤ maxLastTs (applyEvents es).first :=
      lastTs_le_maxLastTs (lookupS_some_mem hch1)
    omega
  -- translate to natural-number arithmetic
  have hres' : ((res.toNat : Int)) = res := Int.toNat_of_nonneg (le_of_lt hres)
  have hrr : 0 < res.toNat := by omega
  have hDcast : (((maxLastTs (applyEvents es).first - n0.ts).toNat : Int)) =
      maxLastTs (applyEvents es).first - n0.ts := by omega
  have hK : groups.length - 1 + 1 = groups.length := by omega
  have hub : (maxLastTs (applyEvents es).first - n0.ts).toNat ≤
      (groups.length - 1) * res.toNat := by
    have h1 : ((((groups.length - 1) * res.toNat : Nat)) : Int) =
        ((groups.length : Int) - 1) * res := by
      push_cast [hres']
      rw [show (((groups.length - 1 : Nat)) : Int) = (groups.length : Int) - 1 by omega]
    have h2 : (((maxLastTs (applyEvents es).first - n0.ts).toNat : Int)) ≤
        ((((groups.length - 1) * res.toNat : Nat)) : Int) := by
      rw [h1, hDcast]
      omega
    exact_mod_cast h2
  have hlb : groups.length - 1 = 0 ∨
      (groups.length - 1 ≠ 0 ∧
        (groups.length - 1 - 1) * res.toNat <
          (maxLastTs (applyEvents es).first - n0.ts).toNat) := by
    by_cases hK1 : groups.length - 1 = 0
    · exact Or.inl hK1
    · refine Or.inr ⟨hK1, ?_⟩
      have hj : (groups.length - 1 - 1) + 1 < groups.length := by omega
      have h3 := hdown (groups.length - 1 - 1) hj
      have h4 : ((((groups.length - 1 - 1) * res.toNat : Nat)) : Int) <
          (((maxLastTs (applyEvents es).first - n0.ts).toNat : Int)) := by
        rw [hDcast]
        push_cast [hres']
        omega
      exact_mod_cast h4
  -- pin the length to the ceiling formula
  have hceil : groups.length - 1 =
      ((maxLastTs (applyEvents es).first - n0.ts).toNat + res.toNat - 1) / res.toNat := by
    have hle1 : ((maxLastTs (applyEvents es).first - n0.ts).toNat + res.toNat - 1) / res.toNat ≤
        groups.length - 1 := by
      rw [Nat.div_le_iff_le_mul_add_pred hrr, mul_comm res.toNat (groups.length - 1)]
      omega
    have hle2 : groups.length - 1 ≤
        ((maxLastTs (applyEvents es).first - n0.ts).toNat + res.toNat - 1) / res.toNat := by
      rcases hlb with h | h
      · rw [h]
        exact Nat.zero_le _
      · obtain ⟨hK0, h⟩ := h
        rw [Nat.le_div_iff_mul_le hrr]
        have h5 : (groups.length - 1) * res.toNat =
            (groups.length - 1 - 1) * res.toNat + res.toNat := by
          have h6 : groups.length - 1 - 1 + 1 = groups.length - 1 := by omega
          calc (groups.length - 1) * res.toNat
              = (groups.length - 1 - 1 + 1) * res.toNat := by rw [h6]
            _ = (groups.length - 1 - 1) * res.toNat + res.toNat := by ring
        omega
    omega
  unfold claimedStepCount
  rw [hpstart]
  simp only [Option.getD_some]
  omega

end Tgstat

namespace Tgstat

/-- Witness for C3 (amended): the single-series scenario runs for
exactly ⌈33/10⌉ + 1 = 5 steps. -/
theorem write_step_count_witness :
    ∃ groups, (applyEvents (fooEvents 0)).Write 10 ["foo"] = (groups, none) ∧
      groups.length = claimedStepCount (applyEvents (fooEvents 0)) 10 :=
  write_step_count (fooEvents 0) 10 ["foo"] (by decide) (by decide) (by decide)

theorem lastLE_some_head_le {n : Node} {rest : List Node} {t : Int} {c : Node}
    (h : lastLE (n :: rest) t = some c) : n.ts ≤ t := by
  by_contra hlt
  push_neg at hlt
  simp [lastLE, hlt] at h

theorem curRel_lookup {chains : String → Option ChainPtr} {t : Int}
    {cur : List (String × ChainPtr)} (hc : CurRel chains t cur) {a : String}
    {q : ChainPtr} (hq : chains a = some q) :
    ∃ n rest, lookupS cur a = some (n, rest) ∧
      ((n :: rest) <:+ (q.1 :: q.2)) ∧ ((n, rest) = q ∨ n.ts ≤ t) := by
  have h0 := hc a
  cases hl : lookupS cur a with
  | none =>
      rw [hl, hq] at h0
      obtain ⟨qn, qrest⟩ := q
      exact absurd h0 (by simp [RelAt])
  | some p =>
      obtain ⟨n, rest⟩ := p
      obtain ⟨qn, qrest⟩ := q
      rw [hl, hq] at h0
      simp only [RelAt] at h0
      exact ⟨n, rest, rfl, h0.1, h0.2⟩

theorem writeStep_emits (t : Int) :
    ∀ (order : List String) (cur : List (String × ChainPtr)) (name : String),
      name ∈ order →
      (∃ n rest, lookupS cur name = some (n, rest) ∧ ¬ t < n.ts) →
      ∃ line ∈ (writeStep t order cur).1, line.name = name := by
  intro order
  induction order with
  | nil => intro cur name h; simp at h
  | cons nm names ih =>
      intro cur name hmem hentry
      obtain ⟨n, rest, hl, hts⟩ := hentry
      by_cases hname : nm = name
      · subst hname
        obtain ⟨c, crest, hfw, -, -, -, -⟩ := @forward_started n rest t hts
        have heq : (writeStep t (nm :: names) cur).1 =
            ⟨nm, c.value, t⟩ ::
              (writeStep t names
                (if !crest.isEmpty then setS cur nm (c, crest) else cur)).1 := by
          simp [writeStep, hl, hfw]
        rw [heq]
        exact ⟨⟨nm, c.value, t⟩, by simp, rfl⟩
      · have hmem' : name ∈ names := by
          rcases List.mem_cons.mp hmem with h | h
          · exact absurd h.symm hname
          · exact h
        cases hl2 : lookupS cur nm with
        | none =>
            have heq : writeStep t (nm :: names) cur = writeStep t names cur := by
              simp [writeStep, hl2]
            rw [heq]
            exact ih cur name hmem' ⟨n, rest, hl, hts⟩
        | some p =>
            obtain ⟨n2, rest2⟩ := p
            by_cases hts2 : t < n2.ts
            · have hfw2 := forward_not_started rest2 hts2
              have heq : writeStep t (nm :: names) cur = writeStep t names cur := by
                simp [writeStep, hl2, hfw2]
              rw [heq]
              exact ih cur name hmem' ⟨n, rest, hl, hts⟩
            · obtain ⟨c2, crest2, hfw2, -, -, -, -⟩ := @forward_started n2 rest2 t hts2
              have heq : (writeStep t (nm :: names) cur).1 =
                  ⟨nm, c2.value, t⟩ ::
                    (writeStep t names
                      (if !crest2.isEmpty then setS cur nm (c2, crest2) else cur)).1 := by
                simp [writeStep, hl2, hfw2]
              rw [heq]
              have hl' : ∃ n3 rest3,
                  lookupS (if !crest2.isEmpty then setS cur nm (c2, crest2) else cur)
                    name = some (n3, rest3) ∧ ¬ t < n3.ts := by
                cases hemp : crest2.isEmpty with
                | true => exact ⟨n, rest, by simpa [hemp] using hl, hts⟩
                | false =>
                    refine ⟨n, rest, ?_, hts⟩
                    simp only [hemp, Bool.not_false, if_true]
                    rw [lookupS_setS_ne _ _ (fun h => hname h.symm)]
                    exact hl
              obtain ⟨line, hline, hlname⟩ := ih _ name hmem' hl'
              exact ⟨line, List.mem_cons_of_mem _ hline, hlname⟩

theorem writeLoop_emits (chains : String → Option ChainPtr) (order : List String)
    (res : Int) (hres : 0 ≤ res) (a : String) (na : Node) (resta : List Node)
    (hcha : chains a = some (na, resta)) (hmem : a ∈ order) :
    ∀ (fuel : Nat) (t : Int) (cur : List (String × ChainPtr)) (groups : List (List Line)),
      CurRel chains t cur → na.ts ≤ t →
      writeLoop order res fuel t cur = some groups →
      ∀ g ∈ groups, ∃ line ∈ g, line.name = a := by
  intro fuel
  induction fuel with
  | zero => intro t cur groups _ _ h; simp [writeLoop] at h
  | succ fuel ih =>
      intro t cur groups hc hstart hloop
      have hentry : ∃ n rest, lookupS cur a = some (n, rest) ∧ ¬ t < n.ts := by
        obtain ⟨n, rest, hl, hsfx, hdisj⟩ := curRel_lookup hc hcha
        refine ⟨n, rest, hl, ?_⟩
        rcases hdisj with h | h
        · rw [Prod.mk.injEq] at h
          rw [h.1]
          omega
        · omega
      have hstep := writeStep_emits t order cur a hmem hentry
      simp only [writeLoop] at hloop
      rw [show writeStep t order cur =
          ((writeStep t order cur).1, (writeStep t order cur).2.1,
           (writeStep t order cur).2.2) from rfl] at hloop
      cases hact : (writeStep t order cur).2.2 with
      | false =>
          rw [hact] at hloop
          simp only [Bool.false_eq_true, if_false, Option.some.injEq] at hloop
          subst hloop
          intro g hg
          simp only [List.mem_singleton] at hg
          subst hg
          exact hstep
      | true =>
          rw [hact] at hloop
          simp only [if_true] at hloop
          cases hrec : writeLoop order res fuel (t + res) (writeStep t order cur).2.1 with
          | none => rw [hrec] at hloop; simp at hloop
          | some g2 =>
              rw [hrec] at hloop
              simp only [Option.some.injEq] at hloop
              subst hloop
              intro g hg
              rcases List.mem_cons.mp hg with hg | hg
              · subst hg
                exact hstep
              · have hc1 : CurRel chains (t + res) (writeStep t order cur).2.1 :=
                  CurRel_mono (by omega) (writeStep_relT chains t order cur hc)
                exact ih (t + res) _ g2 hc1 (by omega) hrec g hg

end Tgstat

namespace Tgstat

/-- C4 (counterexample): series "a" has its only increment at time 0 and
series "b" its only increment at time 50; the walk stops after its first
step — at which "b" has not even started, let alone reached its final
node — emitting no "b" sample at all, against the claim that rendering
stops only once both series have reached their final node in the same
step. -/
theorem write_two_series_counterexample :
    (applyEvents [⟨"a", 1, 0⟩, ⟨"b", 1, 50⟩]).Write 10 ["a", "b"] =
      ([[⟨"a", 1, 0⟩]], none) ∧
    (∀ line ∈ ((applyEvents [⟨"a", 1, 0⟩, ⟨"b", 1, 50⟩]).Write 10
        ["a", "b"]).1.flatten, line.name ≠ "b") := by
  constructor
  · decide
  · decide

/-- C4 (amended): for a reachable recorder holding exactly two series
whose first events differ in time, the later-starting series emits no
sample before its own first timestamp, the earlier series emits a sample
at every step, every sample carries the forward-fill value of its chain,
and the walk stops at the first step at which no series is both started
and unfinished (rather than "once both series have reached their final
node", which the counterexample refutes). -/
theorem write_two_series (es : List Event) (res : Int) (order : List String)
    (a b : String) (ca cb : ChainPtr)
    (hres : 0 < res)
    (ha : lookupS (applyEvents es).first a = some ca)
    (hb : lookupS (applyEvents es).first b = some cb)
    (hkeys : ((applyEvents es).first.map Prod.fst).Perm [a, b])
    (horder : order.Perm [a, b])
    (hfirst : ca.1.ts < cb.1.ts) :
    ∃ groups,
      (applyEvents es).Write res order = (groups, none) ∧
      (∀ line ∈ groups.flatten, line.name = b → cb.1.ts ≤ line.time) ∧
      (∀ g ∈ groups, ∃ line ∈ g, line.name = a) ∧
      (∀ line ∈ groups.flatten, ∃ n0 rest0 c,
        lookupS (applyEvents es).first line.name = some (n0, rest0) ∧
        lastLE (n0 :: rest0) line.time = some c ∧ line.value = c.value) ∧
      (∀ j : Nat, j + 1 < groups.length →
        stillActive (applyEvents es).first (ca.1.ts + (j : Int) * res) = true) ∧
      stillActive (applyEvents es).first
        (ca.1.ts + ((groups.length : Int) - 1) * res) = false := by
  have hndk := keys_nodup_applyEvents es
  have horder' : order.Perm ((applyEvents es).first.map Prod.fst) :=
    horder.trans hkeys.symm
  have hsort : ∀ nm1 n1 rest1,
      lookupS (applyEvents es).first nm1 = some (n1, rest1) → TsSorted (n1 :: rest1) :=
    fun nm1 n1 rest1 h => wf_sorted (wf_applyEvents es) h
  have hne : (applyEvents es).first ≠ [] := by
    intro h
    have hmem := lookupS_some_mem ha
    rw [h] at hmem
    simp at hmem
  obtain ⟨s, hst⟩ : ∃ s, startTime (applyEvents es).first = some s := by
    cases hq : startTime (applyEvents es).first with
    | none => exact absurd (startTime_eq_none.mp hq) hne
    | some s => exact ⟨s, rfl⟩
  have hsa : s = ca.1.ts := by
    have hsle := startTime_le hst (lookupS_some_mem ha)
    obtain ⟨p, hp, hps⟩ := startTime_mem hst
    have hpk : p.1 ∈ [a, b] :=
      hkeys.mem_iff.mp (List.mem_map.mpr ⟨p, hp, rfl⟩)
    have hlp : lookupS (applyEvents es).first p.1 = some p.2 :=
      mem_lookupS_nodup hndk hp
    rcases (by simpa using hpk : p.1 = a ∨ p.1 = b) with hpa | hpb
    · rw [hpa, ha] at hlp
      injection hlp with hlp
      rw [hlp]
      exact hps.symm
    · rw [hpb, hb] at hlp
      injection hlp with hlp
      rw [← hlp] at hps
      omega
  subst hsa
  obtain ⟨groups, hloop, hW⟩ := write_total es res order hres horder' hst
  have hcurinv : CurInv (fun nm => lookupS (applyEvents es).first nm)
      (applyEvents es).first :=
    fun nm n rest h => ⟨n, rest, h, List.suffix_refl _⟩
  have hsound := writeLoop_sound (fun nm => lookupS (applyEvents es).first nm)
    hsort order res _ ca.1.ts _ groups hcurinv hloop
  refine ⟨groups, hW, ?_, ?_, ?_, ?_⟩
  · intro line hline hlb
    obtain ⟨n0, rest0, c, hch, hlast, -⟩ := hsound line hline
    rw [hlb] at hch
    have hch2 : lookupS (applyEvents es).first b = some (n0, rest0) := hch
    rw [hb] at hch2
    injection hch2 with hch2
    have hhead := lastLE_some_head_le hlast
    have hts : n0.ts = cb.1.ts := by rw [hch2]
    omega
  · intro g hg
    have hcha : (fun nm => lookupS (applyEvents es).first nm) a =
        some (ca.1, ca.2) := by simpa using ha
    exact writeLoop_emits (fun nm => lookupS (applyEvents es).first nm) order res
      (le_of_lt hres) a ca.1 ca.2 hcha (horder.mem_iff.mpr (by simp))
      (writeFuel (applyEvents es) res) ca.1.ts (applyEvents es).first groups
      (curRel_init _ _) (by omega) hloop g hg
  · intro line hline
    exact hsound line hline
  · obtain ⟨H1, H2⟩ := writeLoop_length (fun nm => lookupS (applyEvents es).first nm)
      hsort order ((horder').symm.nodup hndk) res (le_of_lt hres) _ ca.1.ts
      (applyEvents es).first groups (curRel_init _ _) hloop
    have hbridge := fun t =>
      @activeAt_iff_stillActive (applyEvents es).first order horder' hndk t
    constructor
    · intro j hj
      exact (hbridge _).mp (H1 j hj)
    · have := (hbridge (ca.1.ts + ((groups.length : Int) - 1) * res)).not.mp H2
      cases hsa2 : stillActive (applyEvents es).first
          (ca.1.ts + ((groups.length : Int) - 1) * res) with
      | false => rfl
      | true => exact absurd hsa2 this

/-- Witness for C4 (amended): series a at times 0 and 20, series b at
time 10, resolution 10; b emits nothing before t = 10 while a emits at
every step, and the walk stops at the first inactive step. -/
theorem write_two_series_witness :
    ∃ groups,
      (applyEvents [⟨"a", 1, 0⟩, ⟨"a", 1, 20⟩, ⟨"b", 2, 10⟩]).Write 10
        ["a", "b"] = (groups, none) ∧
      (∀ line ∈ groups.flatten, line.name = "b" → (10 : Int) ≤ line.time) ∧
      (∀ g ∈ groups, ∃ line ∈ g, line.name = "a") ∧
      (∀ line ∈ groups.flatten, ∃ n0 rest0 c,
        lookupS (applyEvents [⟨"a", 1, 0⟩, ⟨"a", 1, 20⟩, ⟨"b", 2, 10⟩]).first
          line.name = some (n0, rest0) ∧
        lastLE (n0 :: rest0) line.time = some c ∧ line.value = c.value) ∧
      (∀ j : Nat, j + 1 < groups.length →
        stillActive (applyEvents [⟨"a", 1, 0⟩, ⟨"a", 1, 20⟩, ⟨"b", 2, 10⟩]).first
          ((0 : Int) + (j : Int) * 10) = true) ∧
      stillActive (applyEvents [⟨"a", 1, 0⟩, ⟨"a", 1, 20⟩, ⟨"b", 2, 10⟩]).first
        ((0 : Int) + (((groups.length : Int)) - 1) * 10) = false :=
  write_two_series [⟨"a", 1, 0⟩, ⟨"a", 1, 20⟩, ⟨"b", 2, 10⟩] 10 ["a", "b"]
    "a" "b" (⟨1, 0⟩, [⟨2, 20⟩]) (⟨2, 10⟩, []) (by decide) (by decide)
    (by decide) (by decide) (by decide) (by decide)

end Tgstat

namespace Tgstat

/-! ## C9: map iteration order and the bytes `Write` produces -/

/-- The sample that one iteration of `Write`'s per-series `range` loop
emits for a single series name (`none` when the series is absent from
the cursor map or has not started at `t`). -/
def emit1 (cur : List (String × ChainPtr)) (t : Int) (name : String) : Option Line :=
  match lookupS cur name with
  | none => none
  | some (n, rest) =>
    match forward n rest t with
    | (none, _) => none
    | (some nx, _) => some ⟨name, nx.1.value, t⟩

/-- The cursor-map update performed by one iteration of the per-series
`range` loop. -/
def upd1 (t : Int) (cur : List (String × ChainPtr)) (name : String) :
    List (String × ChainPtr) :=
  match lookupS cur name with
  | none => cur
  | some (n, rest) =>
    match forward n rest t with
    | (none, _) => cur
    | (some nx, hasMore) => if hasMore then setS cur name nx else cur

/-- One series' contribution to the step's `hasActiveMetrics` flag. -/
def act1 (cur : List (String × ChainPtr)) (t : Int) (name : String) : Bool :=
  match lookupS cur name with
  | none => false
  | some (n, rest) =>
    match forward n rest t with
    | (none, _) => false
    | (some _, hasMore) => hasMore

theorem any_congr {α : Type} {l : List α} {p q : α → Bool}
    (h : ∀ x ∈ l, p x = q x) : l.any p = l.any q := by
  induction l with
  | nil => rfl
  | cons a l ih =>
      simp only [List.any_cons]
      rw [h a (by simp), ih fun x hx => h x (by simp [hx])]

theorem any_perm {α : Type} {l1 l2 : List α} (h : l1.Perm l2) (p : α → Bool) :
    l1.any p = l2.any p := by
  cases h2 : l2.any p with
  | true =>
      rw [List.any_eq_true] at h2 ⊢
      obtain ⟨x, hx, hpx⟩ := h2
      exact ⟨x, h.mem_iff.mpr hx, hpx⟩
  | false =>
      rw [List.any_eq_false] at h2 ⊢
      intro x hx
      exact h2 x (h.mem_iff.mp hx)

theorem upd1_lookup_ne (t : Int) (cur : List (String × ChainPtr)) {n1 n2 : String}
    (h : n1 ≠ n2) : lookupS (upd1 t cur n1) n2 = lookupS cur n2 := by
  unfold upd1
  cases hl : lookupS cur n1 with
  | none => rfl
  | some p =>
      obtain ⟨n, rest⟩ := p
      simp only [hl]
      cases hf : forward n rest t with
      | mk o b =>
          cases o with
          | none => rfl
          | some nx =>
              cases b with
              | false => rfl
              | true => simp [lookupS_setS_ne cur nx (Ne.symm h)]

/-- What `upd1` does is determined by the lookup at its own key: it is
either the identity or an in-place `setS` at that key. -/
theorem upd1_determined (t : Int) (cur cur2 : List (String × ChainPtr)) (name : String)
    (h : lookupS cur2 name = lookupS cur name) :
    (upd1 t cur name = cur ∧ upd1 t cur2 name = cur2) ∨
    ∃ nx, (lookupS cur name).isSome ∧ upd1 t cur name = setS cur name nx ∧
      upd1 t cur2 name = setS cur2 name nx := by
  unfold upd1
  rw [h]
  cases hl : lookupS cur name with
  | none => exact Or.inl ⟨rfl, rfl⟩
  | some p =>
      obtain ⟨n, rest⟩ := p
      simp only [hl]
      cases hf : forward n rest t with
      | mk o b =>
          cases o with
          | none => exact Or.inl ⟨rfl, rfl⟩
          | some nx =>
              cases b with
              | false => exact Or.inl ⟨rfl, rfl⟩
              | true => exact Or.inr ⟨nx, by simp [hl], by simp, by simp⟩

theorem upd1_comm (t : Int) (cur : List (String × ChainPtr)) (n1 n2 : String) :
    upd1 t (upd1 t cur n1) n2 = upd1 t (upd1 t cur n2) n1 := by
  by_cases h : n1 = n2
  · subst h; rfl
  · have h12 : lookupS (upd1 t cur n1) n2 = lookupS cur n2 := upd1_lookup_ne t cur h
    have h21 : lookupS (upd1 t cur n2) n1 = lookupS cur n1 :=
      upd1_lookup_ne t cur (Ne.symm h)
    rcases upd1_determined t cur (upd1 t cur n2) n1 h21 with ⟨e1, e1h⟩ | ⟨x1, hs1, e1, e1h⟩ <;>
      rcases upd1_determined t cur (upd1 t cur n1) n2 h12 with ⟨e2, e2h⟩ | ⟨x2, hs2, e2, e2h⟩
    · rw [e2h, e1h, e1, e2]
    · rw [e2h, e1h, e1, e2]
    · rw [e2h, e1h, e1, e2]
    · rw [e2h, e1h, e1, e2]
      exact setS_comm cur x1 x2 h hs1 hs2

instance instUpd1RC (t : Int) : RightCommutative (upd1 t) :=
  ⟨fun cur n1 n2 => upd1_comm t cur n1 n2⟩

/-- Decomposition of one `range` pass over duplicate-free iteration
orders: the emitted lines, the cursor update and the activity flag are a
`filterMap`, a `foldl` and an `any` of the per-series pieces, each taken
against the cursor map as it stood at the start of the step. -/
theorem writeStep_decomp (t : Int) :
    ∀ (order : List String) (cur : List (String × ChainPtr)), order.Nodup →
      writeStep t order cur =
        (order.filterMap (emit1 cur t), order.foldl (upd1 t) cur,
          order.any (act1 cur t)) := by
  intro order
  induction order with
  | nil => intro cur _; rfl
  | cons name names ih =>
      intro cur hnd
      have hnmem : name ∉ names := (List.nodup_cons.mp hnd).1
      have hnd' : names.Nodup := (List.nodup_cons.mp hnd).2
      have hlook : ∀ x ∈ names, lookupS (upd1 t cur name) x = lookupS cur x := by
        intro x hx
        exact upd1_lookup_ne t cur fun e => hnmem (e ▸ hx)
      simp only [writeStep]
      cases hl : lookupS cur name with
      | none =>
          simp only [hl]
          have he : emit1 cur t name = none := by simp [emit1, hl]
          have ha : act1 cur t name = false := by simp [act1, hl]
          have hu : upd1 t cur name = cur := by simp [upd1, hl]
          rw [ih cur hnd', List.filterMap_cons, List.any_cons, List.foldl_cons,
            he, ha, hu]
          simp
      | some p =>
          obtain ⟨n, rest⟩ := p
          simp only [hl]
          cases hfw : forward n rest t with
          | mk o b =>
              cases o with
              | none =>
                  simp only [hfw]
                  have he : emit1 cur t name = none := by simp [emit1, hl, hfw]
                  have ha : act1 cur t name = false := by simp [act1, hl, hfw]
                  have hu : upd1 t cur name = cur := by simp [upd1, hl, hfw]
                  rw [ih cur hnd', List.filterMap_cons, List.any_cons,
                    List.foldl_cons, he, ha, hu]
                  simp
              | some nx =>
                  simp only [hfw]
                  have he : emit1 cur t name = some ⟨name, nx.1.value, t⟩ := by
                    simp [emit1, hl, hfw]
                  have ha : act1 cur t name = b := by simp [act1, hl, hfw]
                  have hu : upd1 t cur name = if b then setS cur name nx else cur := by
                    simp [upd1, hl, hfw]
                  have hfm : names.filterMap
                        (emit1 (if b then setS cur name nx else cur) t) =
                      names.filterMap (emit1 cur t) :=
                    List.filterMap_congr fun x hx => by
                      unfold emit1
                      rw [← hu, hlook x hx]
                  have han : names.any
                        (act1 (if b then setS cur name nx else cur) t) =
                      names.any (act1 cur t) :=
                    any_congr fun x hx => by
                      unfold act1
                      rw [← hu, hlook x hx]
                  rw [ih (if b then setS cur name nx else cur) hnd', hfm, han]
                  rw [List.filterMap_cons, List.any_cons, List.foldl_cons]
                  rw [he, ha, hu]

theorem writeStep_perm {order1 order2 : List String} (hnd : order1.Nodup)
    (hp : order1.Perm order2) (t : Int) (cur : List (String × ChainPtr)) :
    (writeStep t order1 cur).1.Perm (writeStep t order2 cur).1 ∧
    (writeStep t order1 cur).2.1 = (writeStep t order2 cur).2.1 ∧
    (writeStep t order1 cur).2.2 = (writeStep t order2 cur).2.2 := by
  rw [writeStep_decomp t order1 cur hnd, writeStep_decomp t order2 cur (hp.nodup hnd)]
  exact ⟨hp.filterMap _,
    @List.Perm.foldl_eq _ _ (upd1 t) order1 order2 (instUpd1RC t) hp cur,
    any_perm hp _⟩

theorem writeLoop_perm {order1 order2 : List String} (hnd : order1.Nodup)
    (hp : order1.Perm order2) (res : Int) :
    ∀ (fuel : Nat) (t : Int) (cur : List (String × ChainPtr)),
      (writeLoop order1 res fuel t cur = none ↔
        writeLoop order2 res fuel t cur = none) ∧
      ∀ g1 g2, writeLoop order1 res fuel t cur = some g1 →
        writeLoop order2 res fuel t cur = some g2 → List.Forall₂ List.Perm g1 g2 := by
  intro fuel
  induction fuel with
  | zero =>
      intro t cur
      exact ⟨Iff.rfl, fun g1 g2 h1 _ => by cases h1⟩
  | succ fuel ih =>
      intro t cur
      obtain ⟨hlp, hcur, hact⟩ := writeStep_perm hnd hp t cur
      simp only [writeLoop]
      rw [show writeStep t order1 cur =
          ((writeStep t order1 cur).1, (writeStep t order1 cur).2.1,
           (writeStep t order1 cur).2.2) from rfl,
          show writeStep t order2 cur =
          ((writeStep t order2 cur).1, (writeStep t order2 cur).2.1,
           (writeStep t order2 cur).2.2) from rfl]
      rw [← hcur, ← hact]
      cases hA : (writeStep t order1 cur).2.2 with
      | false =>
          refine ⟨by simp, ?_⟩
          intro g1 g2 h1 h2
          rw [if_neg Bool.false_ne_true] at h1 h2
          injection h1 with h1
          injection h2 with h2
          subst h1
          subst h2
          exact List.Forall₂.cons hlp List.Forall₂.nil
      | true =>
          rw [if_pos rfl, if_pos rfl]
          obtain ⟨hiff, hrel⟩ := ih (t + res) ((writeStep t order1 cur).2.1)
          cases hrec1 : writeLoop order1 res fuel (t + res)
              ((writeStep t order1 cur).2.1) with
          | none =>
              rw [hiff.mp hrec1]
              exact ⟨Iff.rfl, fun g1 g2 h1 _ => by cases h1⟩
          | some gs1 =>
              cases hrec2 : writeLoop order2 res fuel (t + res)
                  ((writeStep t order1 cur).2.1) with
              | none => exact absurd (hiff.mpr hrec2) (by simp [hrec1])
              | some gs2 =>
                  refine ⟨by simp, ?_⟩
                  intro g1 g2 h1 h2
                  injection h1 with h1
                  injection h2 with h2
                  subst h1
                  subst h2
                  exact List.Forall₂.cons hlp (hrel gs1 gs2 hrec1 hrec2)

/-- C9: the claim as stated is refuted.  `Write`'s per-step `range` loop
iterates a Go map, whose iteration order is deliberately randomized
between calls, so two successive calls on the same recorder may write
the same per-step samples in different within-step orders and the
rendered bytes differ.  Modelled here by two iteration orders, both
permutations of the recorder's key set, producing different bytes. -/
theorem write_not_byte_identical :
    ((["a", "b"] : List String).Perm
        ((applyEvents [⟨"a", 1, 0⟩, ⟨"b", 2, 0⟩]).first.map Prod.fst) ∧
      (["b", "a"] : List String).Perm
        ((applyEvents [⟨"a", 1, 0⟩, ⟨"b", 2, 0⟩]).first.map Prod.fst)) ∧
    renderLines (((applyEvents [⟨"a", 1, 0⟩, ⟨"b", 2, 0⟩]).Write 10
        ["a", "b"]).1.flatten) ≠
      renderLines (((applyEvents [⟨"a", 1, 0⟩, ⟨"b", 2, 0⟩]).Write 10
        ["b", "a"]).1.flatten) := by
  refine ⟨⟨?_, ?_⟩, ?_⟩
  · decide
  · decide
  · decide

/-- C9 (amended): two `Write` calls on the same recorder with the same
resolution agree on everything except the within-step interleaving: for
any two duplicate-free iteration orders that are permutations of each
other, both calls succeed or fail alike and, step by step, emit the same
set of sample lines up to order. -/
theorem write_order_perm (r : Recorder) (res : Int) {order1 order2 : List String}
    (hnd : order1.Nodup) (hp : order1.Perm order2) :
    (r.Write res order1).2 = (r.Write res order2).2 ∧
    List.Forall₂ List.Perm (r.Write res order1).1 (r.Write res order2).1 := by
  cases hst : startTime r.first with
  | none =>
      simp only [Recorder.Write, hst]
      exact ⟨trivial, List.Forall₂.nil⟩
  | some start =>
      simp only [Recorder.Write, hst]
      obtain ⟨hiff, hrel⟩ := writeLoop_perm hnd hp res (writeFuel r res) start r.first
      cases h1 : writeLoop order1 res (writeFuel r res) start r.first with
      | none =>
          rw [hiff.mp h1]
          exact ⟨rfl, List.Forall₂.nil⟩
      | some g1 =>
          cases h2 : writeLoop order2 res (writeFuel r res) start r.first with
          | none => exact absurd (hiff.mpr h2) (by simp [h1])
          | some g2 => exact ⟨rfl, hrel g1 g2 h1 h2⟩

/-- Witness for C9 (amended) at the two-series recorder and the two
iteration orders of the counterexample. -/
theorem write_order_perm_witness :
    (["a", "b"] : List String).Nodup ∧
    (["a", "b"] : List String).Perm ["b", "a"] ∧
    ((((applyEvents [⟨"a", 1, 0⟩, ⟨"b", 2, 0⟩]).Write 10 ["a", "b"]).2 =
        ((applyEvents [⟨"a", 1, 0⟩, ⟨"b", 2, 0⟩]).Write 10 ["b", "a"]).2) ∧
      List.Forall₂ List.Perm
        ((applyEvents [⟨"a", 1, 0⟩, ⟨"b", 2, 0⟩]).Write 10 ["a", "b"]).1
        ((applyEvents [⟨"a", 1, 0⟩, ⟨"b", 2, 0⟩]).Write 10 ["b", "a"]).1) :=
  ⟨by decide, by decide,
    write_order_perm (applyEvents [⟨"a", 1, 0⟩, ⟨"b", 2, 0⟩]) 10 (by decide) (by decide)⟩

end Tgstat
